import Mathlib

/-!
Verification of `linear_jira_sync.py` (LinearJiraSync repository).

This file gives a shallow embedding of the functions of the repository that
the specification's claims are about, and settles each claim against that
embedding.  Strings are modelled as Lean `String`/`List Char`; Python dicts
that preserve insertion order are modelled as association lists with
Python-dict update semantics; network collaborators (the Jira and Linear
clients) are modelled as oracle parameters.  Loops whose termination is not
structural are written with an explicit fuel argument sized from the input;
theorems below prove the fuel never runs out, which is exactly the
termination argument of the corresponding Python loop.

Modelling notes (deviations forced by the embedding, none affecting the
claims):
* line splitting models `str.splitlines()` for the `"\n"` separator only;
* `\s` / `str.strip()` use the ASCII whitespace characters;
* `str.lower()` uses `Char.toLower` (ASCII-correct).
-/

namespace LJS

/-- Python whitespace class `\s` / `str.strip()` charset (ASCII part). -/
def pyWS (c : Char) : Bool :=
  c = ' ' || c = '\t' || c = '\n' || c = '\r' || c = '\x0b' || c = '\x0c'

/-- Leading-whitespace strip. -/
def stripL (cs : List Char) : List Char := cs.dropWhile pyWS

/-- Trailing-whitespace strip. -/
def stripR (cs : List Char) : List Char := (cs.reverse.dropWhile pyWS).reverse

/-- Python `str.strip()`. -/
def pyStrip (cs : List Char) : List Char := stripR (stripL cs)

/-- Python `str.lower()` (ASCII). -/
def lowerStr (cs : List Char) : List Char := cs.map Char.toLower

/-- Substring occurrence test (`u in s` for Python strings). -/
def occursIn (u s : List Char) : Bool := decide (u <:+: s)

/-- The backquote character (code-fence / inline-code delimiter). -/
def btChar : Char := Char.ofNat 96

-- ═══════════════════════════════════════════════════════════════════════════
--  Atlassian Document Format node tree (the dict vocabulary built by the
--  markdown converter in `linear_jira_sync.py`).
-- ═══════════════════════════════════════════════════════════════════════════

/-- Inline marks attached to a `text` node. -/
inductive Mark where
  | strong
  | em
  | strike
  | code
  | link (href : String)

/-- The `attrs` of a `media` node inside a `mediaSingle`. -/
inductive MediaAttrs where
  | file (id collection : String)
  | external (url : String)
deriving DecidableEq

/-- ADF nodes produced by the converter.  `codeBlock` carries its single
inner text node inline; `mediaSingle` carries its `media` child and the
`layout`/`width` attrs (`width`/`widthType` are set only for `file` media). -/
inductive ADF where
  | text (s : String) (marks : List Mark)
  | paragraph (content : List ADF)
  | heading (level : Nat) (content : List ADF)
  | codeBlock (language : String) (code : String)
  | rule
  | blockquote (content : List ADF)
  | bulletList (items : List ADF)
  | orderedList (items : List ADF)
  | listItem (content : List ADF)
  | mediaSingle (layout : String) (width : Option Nat) (media : MediaAttrs)

/-- The document root: always `version 1`, `type "doc"` in the source. -/
structure AdfDoc where
  version : Nat
  docType : String
  content : List ADF

-- ═══════════════════════════════════════════════════════════════════════════
--  Inline tokenizer  (`_inline_marks`)
--
--  The Python regex alternation is, in order:
--    ***x***  **x**  *x*  _x_  ~~x~~  `x`  image ![alt](url)  link [t](u)
--  Each lazy group `(.+?)` before a literal closing delimiter matches the
--  shortest non-empty content such that the delimiter follows; the image
--  pattern uses negated classes `[^\]]*` / `[^)]+`, which match greedily and
--  deterministically up to the first closing bracket.
-- ═══════════════════════════════════════════════════════════════════════════

/-- Scan for the first occurrence of `delim`; return the text before it and
the text after it.  Models the backtracking search of a lazy `(.*?)` group
followed by the literal `delim`. -/
def findDelim (delim : List Char) : List Char → Option (List Char × List Char)
  | [] => none
  | c :: cs =>
    if delim.isPrefixOf (c :: cs) then some ([], (c :: cs).drop delim.length)
    else
      match findDelim delim cs with
      | some (a, b) => some (c :: a, b)
      | none => none

/-- Lazy `(.+?)` followed by `delim`: the content must be non-empty, so the
first character is always content and the delimiter search starts after it. -/
def findClose (delim : List Char) : List Char → Option (List Char × List Char)
  | [] => none
  | c :: cs =>
    match findDelim delim cs with
    | some (a, b) => some (c :: a, b)
    | none => none

/-- Scan up to the first occurrence of the single character `stop`
(the semantics of a greedy negated class `[^X]*` followed by literal `X`). -/
def takeUntil (stop : Char) : List Char → Option (List Char × List Char)
  | [] => none
  | c :: cs =>
    if c = stop then some ([], cs)
    else
      match takeUntil stop cs with
      | some (a, b) => some (c :: a, b)
      | none => none

/-- A parsed image reference `![alt](url)`. -/
structure ImgMatch where
  alt : List Char
  url : List Char
deriving DecidableEq

/-- Match the image pattern at the start of the input -/
def matchImageAt : List Char → Option (ImgMatch × List Char)
  | '!' :: '[' :: cs =>
    match takeUntil ']' cs with
    | some (alt, rest1) =>
      match rest1 with
      | '(' :: rest2 =>
        match takeUntil ')' rest2 with
        | some (url, rest3) =>
          if url.isEmpty then none else some (⟨alt, url⟩, rest3)
        | none => none
      | _ => none
    | none => none
  | _ => none

/-- Match the link pattern at the start of the input.
The Python pattern backtracks lazily on both groups, but if no close
parenthesis follows the earliest occurrence of the two-character close
sequence, none follows any later occurrence either, so the first-occurrence
scan below is equivalent. -/
def matchLinkAt : List Char → Option ((List Char × List Char) × List Char)
  | '[' :: cs =>
    match findClose [']', '('] cs with
    | some (txt, rest1) =>
      match findClose [')'] rest1 with
      | some (url, rest2) => some ((txt, url), rest2)
      | none => none
    | none => none
  | _ => none

def tokBoldItalic (cs : List Char) : Option (ADF × List Char) :=
  if ['*', '*', '*'].isPrefixOf cs then
    (findClose ['*', '*', '*'] (cs.drop 3)).map fun p =>
      (.text ⟨p.1⟩ [.strong, .em], p.2)
  else none

def tokBold (cs : List Char) : Option (ADF × List Char) :=
  if ['*', '*'].isPrefixOf cs then
    (findClose ['*', '*'] (cs.drop 2)).map fun p =>
      (.text ⟨p.1⟩ [.strong], p.2)
  else none

def tokItalicStar (cs : List Char) : Option (ADF × List Char) :=
  if ['*'].isPrefixOf cs then
    (findClose ['*'] (cs.drop 1)).map fun p => (.text ⟨p.1⟩ [.em], p.2)
  else none

def tokItalicUnder (cs : List Char) : Option (ADF × List Char) :=
  if ['_'].isPrefixOf cs then
    (findClose ['_'] (cs.drop 1)).map fun p => (.text ⟨p.1⟩ [.em], p.2)
  else none

def tokStrike (cs : List Char) : Option (ADF × List Char) :=
  if ['~', '~'].isPrefixOf cs then
    (findClose ['~', '~'] (cs.drop 2)).map fun p => (.text ⟨p.1⟩ [.strike], p.2)
  else none

def tokCode (cs : List Char) : Option (ADF × List Char) :=
  if [btChar].isPrefixOf cs then
    (findClose [btChar] (cs.drop 1)).map fun p => (.text ⟨p.1⟩ [.code], p.2)
  else none

/-- The fixed prefix of the rendered image label `"[image: "`. -/
def imgLabelOpen : List Char := ['[', 'i', 'm', 'a', 'g', 'e', ':', ' ']

def tokImage (cs : List Char) : Option (ADF × List Char) :=
  (matchImageAt cs).map fun p =>
    let altv := if p.1.alt.isEmpty then ['i', 'm', 'a', 'g', 'e'] else p.1.alt
    (.text ⟨imgLabelOpen ++ altv ++ [']']⟩ [.link ⟨p.1.url⟩], p.2)

def tokLink (cs : List Char) : Option (ADF × List Char) :=
  (matchLinkAt cs).map fun p => (.text ⟨p.1.1⟩ [.link ⟨p.1.2⟩], p.2)

/-- One step of the alternation, in the order of the Python pattern. -/
def tryTok (cs : List Char) : Option (ADF × List Char) :=
  tokBoldItalic cs <|> tokBold cs <|> tokItalicStar cs <|> tokItalicUnder cs
    <|> tokStrike cs <|> tokCode cs <|> tokImage cs <|> tokLink cs

/-- Emit the accumulated gap (text between matches) as a plain text node. -/
def flushGap (acc : List Char) : List ADF :=
  if acc.isEmpty then [] else [.text ⟨acc.reverse⟩ []]

/-- The `finditer` scan of `_inline_marks`: find the leftmost position where
some alternation matches, emit the gap before it and the matched node,
continue after the match.  Fuel decreases every step; every step consumes at
least one input character, so `length + 1` fuel suffices (proved below). -/
def inlineGo : Nat → List Char → List Char → Option (List ADF)
  | 0, _, _ => none
  | _ + 1, [], acc => some (flushGap acc)
  | fuel + 1, c :: cs, acc =>
    match tryTok (c :: cs) with
    | some (node, rest) =>
      (inlineGo fuel rest []).map fun ns => flushGap acc ++ node :: ns
    | none => inlineGo fuel cs (c :: acc)

/-- `_inline_marks`: the final `nodes or [plain text]` fallback fires exactly
when the node list is empty (i.e. on empty input). -/
def inline_marks (t : List Char) : Option (List ADF) :=
  (inlineGo (t.length + 1) t []).map fun ns =>
    if ns.isEmpty then [.text ⟨t⟩ []] else ns

-- ═══════════════════════════════════════════════════════════════════════════
--  Block parser  (`markdown_to_adf`)
-- ═══════════════════════════════════════════════════════════════════════════

/-- Python `str.splitlines()` restricted to the `'\n'` separator: split on
every newline, except that a trailing newline produces no final empty line,
and the empty string produces no lines. -/
def splitNl : List Char → List (List Char)
  | [] => [[]]
  | c :: cs =>
    if c = '\n' then [] :: splitNl cs
    else
      match splitNl cs with
      | l :: ls => (c :: l) :: ls
      | [] => [[c]]

def splitLinesPy (s : List Char) : List (List Char) :=
  if s.isEmpty then []
  else if s.getLast? = some '\n' then (splitNl s).dropLast
  else splitNl s

/-- `sep.join(parts)` for a single-character separator. -/
def joinSep (sep : Char) : List (List Char) → List Char
  | [] => []
  | [l] => l
  | l :: ls => l ++ sep :: joinSep sep ls

/-- Opening fence `^(X{3,})(.*)` for X a backquote or tilde: the greedy run of
the first character, of length at least 3; returns (fence char, run length,
text after the run). -/
def fenceStart (line : List Char) : Option (Char × Nat × List Char) :=
  match line with
  | [] => none
  | c :: _ =>
    if c = btChar || c = '~' then
      let n := (line.takeWhile (· = c)).length
      if 3 ≤ n then some (c, n, line.drop n) else none
    else none

/-- Closing fence: the stripped line is entirely a run of the fence character
of length at least the opening run length. -/
def isFenceClose (fc : Char) (fl : Nat) (line : List Char) : Bool :=
  let t := pyStrip line
  fl ≤ t.length && t.all (· = fc)

/-- Consume code lines up to (and including) the closing fence. -/
def takeCode (fc : Char) (fl : Nat) :
    List (List Char) → List (List Char) × List (List Char)
  | [] => ([], [])
  | l :: ls =>
    if isFenceClose fc fl l then ([], ls)
    else
      let p := takeCode fc fl ls
      (l :: p.1, p.2)

/-- Heading `^(#{1,6})\s+`: a run of 1 to 6 hash marks followed by a
whitespace character.  Returns the run length (the heading level before the
`min` with 6, which the source applies anyway). -/
def headingLevel (line : List Char) : Option Nat :=
  let n := (line.takeWhile (· = '#')).length
  if 1 ≤ n && n ≤ 6 then
    match line.drop n with
    | c :: _ => if pyWS c then some n else none
    | [] => none
  else none

/-- Horizontal rule `^\s*(?:---+|\*\*\*+|___+)\s*$`. -/
def isRuleLine (line : List Char) : Bool :=
  let t := pyStrip line
  3 ≤ t.length && (t.all (· = '-') || t.all (· = '*') || t.all (· = '_'))

/-- Block-quote line: starts with `"> "` or is exactly `">"`. -/
def isQuoteLine (l : List Char) : Bool :=
  ['>', ' '].isPrefixOf l || l = ['>']

/-- Strip the quote marker: `line[2:]` when it starts with `"> "`, else `""`. -/
def stripQuote (l : List Char) : List Char :=
  if ['>', ' '].isPrefixOf l then l.drop 2 else []

/-- Bullet line `^\s*[-*+] `: returns the text after the marker and the
single following space. -/
def bulletBody (l : List Char) : Option (List Char) :=
  match l.dropWhile pyWS with
  | c :: ' ' :: rest =>
    if c = '-' || c = '*' || c = '+' then some rest else none
  | _ => none

/-- Ordered line `^\s*\d+\.\s+`: returns the text after the greedy trailing
whitespace run. -/
def orderedBody (l : List Char) : Option (List Char) :=
  let r := l.dropWhile pyWS
  let ds := r.takeWhile Char.isDigit
  if ds.isEmpty then none
  else
    match r.drop ds.length with
    | '.' :: rest =>
      let ws := rest.takeWhile pyWS
      if ws.isEmpty then none else some (rest.drop ws.length)
    | _ => none

/-- `re.sub(bullet-marker, '', line)`: drop the marker prefix if it matches,
else leave the line unchanged. -/
def bulletText (l : List Char) : List Char := (bulletBody l).getD l

def orderedText (l : List Char) : List Char := (orderedBody l).getD l

/-- A line that continues a paragraph: non-blank and not the start of any
other block (the inner `break` conditions of the paragraph loop; note a bare
`">"` line does not break a paragraph, only `"> "` does). -/
def paraLine (l : List Char) : Bool :=
  !(pyStrip l).isEmpty && (fenceStart l).isNone && (headingLevel l).isNone &&
    !isRuleLine l && !(['>', ' '].isPrefixOf l) && (bulletBody l).isNone &&
    (orderedBody l).isNone

/-- Fuel measure for the block loop: total characters plus number of lines. -/
def totalLen : List (List Char) → Nat
  | [] => 0
  | l :: ls => l.length + 1 + totalLen ls

/-- The main block loop of `markdown_to_adf`.  Block recognition order per
line: fence → heading → rule → quote → bullet list → ordered list → blank →
paragraph.  The quote branch recursively converts the unquoted inner text.
Fuel decreases on every recursive call; the theorems below prove
`totalLen lines < fuel` keeps it from running out, which is the
strict-line-index-increase termination argument of the Python loop. -/
def mdBlocks : Nat → List (List Char) → Option (List ADF)
  | 0, _ => none
  | _ + 1, [] => some []
  | fuel + 1, line :: rest =>
    match fenceStart line with
    | some (fc, fl, afterFence) =>
      let lang := pyStrip afterFence
      let p := takeCode fc fl rest
      let langStr : String := if lang.isEmpty then "text" else ⟨lang⟩
      (mdBlocks fuel p.2).map fun ns =>
        .codeBlock langStr ⟨joinSep '\n' p.1⟩ :: ns
    | none =>
      match headingLevel line with
      | some n =>
        match inline_marks (pyStrip (line.drop n)) with
        | some inl =>
          (mdBlocks fuel rest).map fun ns => .heading (min n 6) inl :: ns
        | none => none
      | none =>
        if isRuleLine line then (mdBlocks fuel rest).map fun ns => .rule :: ns
        else if isQuoteLine line then
          let q := (line :: rest).takeWhile isQuoteLine
          let rest1 := (line :: rest).dropWhile isQuoteLine
          let inner := joinSep '\n' (q.map stripQuote)
          match mdBlocks fuel (splitLinesPy inner) with
          | some innerC =>
            (mdBlocks fuel rest1).map fun ns => .blockquote innerC :: ns
          | none => none
        else if (bulletBody line).isSome then
          let q := (line :: rest).takeWhile fun l => (bulletBody l).isSome
          let rest1 := (line :: rest).dropWhile fun l => (bulletBody l).isSome
          match q.mapM fun l =>
              (inline_marks (bulletText l)).map fun inl =>
                ADF.listItem [ADF.paragraph inl] with
          | some items =>
            (mdBlocks fuel rest1).map fun ns => .bulletList items :: ns
          | none => none
        else if (orderedBody line).isSome then
          let q := (line :: rest).takeWhile fun l => (orderedBody l).isSome
          let rest1 := (line :: rest).dropWhile fun l => (orderedBody l).isSome
          match q.mapM fun l =>
              (inline_marks (orderedText l)).map fun inl =>
                ADF.listItem [ADF.paragraph inl] with
          | some items =>
            (mdBlocks fuel rest1).map fun ns => .orderedList items :: ns
          | none => none
        else if (pyStrip line).isEmpty then mdBlocks fuel rest
        else
          let p := (line :: rest).takeWhile paraLine
          let rest1 := (line :: rest).dropWhile paraLine
          match inline_marks (joinSep ' ' p) with
          | some inl =>
            (mdBlocks fuel rest1).map fun ns =>
              if p.isEmpty then ns else .paragraph inl :: ns
          | none => none

/-- `markdown_to_adf`: the converter entry point. -/
def markdown_to_adf (markdown : String) : AdfDoc :=
  if markdown = "" then ⟨1, "doc", []⟩
  else
    let lines := splitLinesPy markdown.data
    ⟨1, "doc", (mdBlocks (totalLen lines + 1) lines).getD []⟩

-- ═══════════════════════════════════════════════════════════════════════════
--  Image extraction, image-boundary splitting and media substitution
--  (`extract_image_urls`, `build_description_adf_with_media`)
-- ═══════════════════════════════════════════════════════════════════════════

/-- The full text consumed by an image match (the capture of the splitting
pattern). -/
def imgTxt (m : ImgMatch) : List Char :=
  '!' :: '[' :: m.alt ++ ']' :: '(' :: m.url ++ [')']

/-- `re.findall` of the image pattern: leftmost matches, scanning resumes
after each match.  Fuel decreases every step; every recursion consumes at
least one character. -/
def findImagesGo : Nat → List Char → List (ImgMatch) → Option (List ImgMatch)
  | 0, _, _ => none
  | _ + 1, [], acc => some acc.reverse
  | fuel + 1, c :: cs, acc =>
    match matchImageAt (c :: cs) with
    | some (m, rest) => findImagesGo fuel rest (m :: acc)
    | none => findImagesGo fuel cs acc

/-- `extract_image_urls`: list of `(alt, url)` pairs for all markdown images. -/
def extract_image_urls (markdown : String) : List (String × String) :=
  ((findImagesGo (markdown.data.length + 1) markdown.data []).getD []).map
    fun m => (⟨m.alt⟩, ⟨m.url⟩)

/-- `re.split` with the capturing image pattern: the gaps and the matched
image texts, interleaved (gaps may be empty, matches never are). -/
def splitImagesGo : Nat → List Char → List Char → Option (List (List Char))
  | 0, _, _ => none
  | _ + 1, [], acc => some [acc.reverse]
  | fuel + 1, c :: cs, acc =>
    match matchImageAt (c :: cs) with
    | some (m, rest) =>
      (splitImagesGo fuel rest []).map fun segs => acc.reverse :: imgTxt m :: segs
    | none => splitImagesGo fuel cs (c :: acc)

def splitImages (s : List Char) : List (List Char) :=
  (splitImagesGo (s.length + 1) s []).getD []

/-- `re.fullmatch` of the image pattern against one segment. -/
def fullmatchImage (seg : List Char) : Option ImgMatch :=
  match matchImageAt seg with
  | some (m, rest) => if rest.isEmpty then some m else none
  | none => none

/-- A `media_map` entry: `("file", uuid, collection)` or `("external", url)`. -/
inductive MediaEntry where
  | file (uuid collection : String)
  | external (url : String)
deriving DecidableEq

/-- Python `dict.get` on the substitution table. -/
def lookupEntry (m : List (String × MediaEntry)) (k : String) : Option MediaEntry :=
  (m.find? fun p => p.1 = k).map fun p => p.2

/-- The strings carried by a substitution-table entry into the output tree. -/
def entryStrings : MediaEntry → List String
  | .file uuid collection => [uuid, collection]
  | .external url => [url]

/-- `build_description_adf_with_media`: convert markdown to ADF, splitting at
image boundaries; an image with a `file` entry becomes an inline media node,
one with an `external` entry becomes an external media node, and an image
with no entry is skipped entirely. -/
def build_description_adf_with_media (markdown : String)
    (media_map : List (String × MediaEntry)) : AdfDoc :=
  if markdown = "" then ⟨1, "doc", []⟩
  else
    let content := (splitImages markdown.data).foldl
      (fun content seg =>
        if seg.isEmpty then content
        else
          match fullmatchImage seg with
          | some m =>
            match lookupEntry media_map ⟨m.url⟩ with
            | some (.file uuid collection) =>
              content ++ [ADF.mediaSingle "center" (some 760) (.file uuid collection)]
            | some (.external url) =>
              content ++ [ADF.mediaSingle "center" none (.external url)]
            | none => content
          | none => content ++ (markdown_to_adf ⟨seg⟩).content)
      []
    ⟨1, "doc", content⟩

-- ═══════════════════════════════════════════════════════════════════════════
--  Reference predicate: does a node of the tree reference a given URL?
--  A node references `u` when a URL-carrying attribute (a link mark's
--  `href`, a media node's `id`/`collection`/`url`) equals `u`, or `u`
--  occurs inside the node's text.
-- ═══════════════════════════════════════════════════════════════════════════

def markHitsUrl (u : String) : Mark → Bool
  | .link href => href = u
  | _ => false

def mediaHitsUrl (u : String) : MediaAttrs → Bool
  | .file i c => i = u || c = u
  | .external url => url = u

mutual

def adfRefs (u : String) : ADF → Bool
  | .text s marks => occursIn u.data s.data || marks.any (markHitsUrl u)
  | .codeBlock _ code => occursIn u.data code.data
  | .paragraph c => adfRefsList u c
  | .heading _ c => adfRefsList u c
  | .blockquote c => adfRefsList u c
  | .bulletList c => adfRefsList u c
  | .orderedList c => adfRefsList u c
  | .listItem c => adfRefsList u c
  | .rule => false
  | .mediaSingle _ _ m => mediaHitsUrl u m

/-- `any (adfRefs u)` over a child list, written mutually so the recursion
is structural. -/
def adfRefsList (u : String) : List ADF → Bool
  | [] => false
  | x :: xs => adfRefs u x || adfRefsList u xs

end

/-- Whether any node of the document tree references `u`. -/
def docRefs (u : String) (d : AdfDoc) : Bool := d.content.any (adfRefs u)

-- ═══════════════════════════════════════════════════════════════════════════
--  Jira field payloads: Python dicts with insertion order, JSON-ish values.
-- ═══════════════════════════════════════════════════════════════════════════

/-- A Python number: `int` or `float` (floats modelled as exact rationals). -/
inductive JNum where
  | int (n : Int)
  | float (q : Rat)
deriving DecidableEq

def JNum.toRat : JNum → Rat
  | .int n => n
  | .float q => q

/-- A JSON-ish Python value as it appears in a Jira fields payload. -/
inductive JVal where
  | str (s : String)
  | num (v : JNum)
  | obj (kvs : List (String × JVal))
  | arr (xs : List JVal)

/-- Python truthiness of a `JVal`. -/
def JVal.truthy : JVal → Bool
  | .str s => s ≠ ""
  | .num (.int n) => n ≠ 0
  | .num (.float q) => q ≠ 0
  | .obj kvs => !kvs.isEmpty
  | .arr xs => !xs.isEmpty

/-- `d.get(k, dflt)` on an embedded dict value (non-dicts yield the default;
the source only applies this to dict-shaped values). -/
def jvalGet (v : JVal) (k : String) (dflt : JVal) : JVal :=
  match v with
  | .obj kvs => ((kvs.find? fun p => p.1 = k).map fun p => p.2).getD dflt
  | _ => dflt

/-- Extract a string value at key `k` (used for `result["key"]`). -/
def jvalStrAt (v : JVal) (k : String) : Option String :=
  match v with
  | .obj kvs =>
    match ((kvs.find? fun p => p.1 = k).map fun p => p.2 : Option JVal) with
    | some (.str s) => some s
    | _ => none
  | _ => none

/-- A fields payload: a Python dict preserving insertion order. -/
abbrev Fields := List (String × JVal)

def dictGet (d : Fields) (k : String) : Option JVal :=
  (d.find? fun p => p.1 = k).map fun p => p.2

def dictMem (d : Fields) (k : String) : Bool :=
  (d.find? fun p => p.1 = k).isSome

/-- Python dict assignment: replace in place if the key exists, else append. -/
def dictSet (d : Fields) (k : String) (v : JVal) : Fields :=
  if dictMem d k then d.map fun p => if p.1 = k then (k, v) else p
  else d ++ [(k, v)]

/-- Python `dict.pop(k, None)`: remove the key if present. -/
def dictPop (d : Fields) (k : String) : Fields := d.filter fun p => p.1 ≠ k

-- ═══════════════════════════════════════════════════════════════════════════
--  Configuration tables (module constants of the source).
-- ═══════════════════════════════════════════════════════════════════════════

def LABEL_ISSUE_TYPE_MAP : List (String × String) :=
  [("Bug", "Bug"), ("Feature Request", "Story")]

def DEFAULT_ISSUE_TYPE : String := "Story"

def TRIAGE_LABEL_NAMES : List String := []

def DEFAULT_PRIORITY_MAP : List (String × String) :=
  [("Urgent", "Highest"), ("High", "High"), ("Medium", "Medium"),
   ("Low", "Low"), ("No priority", "Medium")]

def RELATION_TYPE_MAP : List (String × String) :=
  [("blocks", "Blocks"), ("blocked_by", "Blocks"),
   ("duplicate_of", "Duplicates"), ("duplicate_by", "Duplicates"),
   ("related_to", "Relates"), ("relates_to", "Relates")]

/-- Association-list lookup (Python `dict.get`). -/
def alGet (m : List (String × String)) (k : String) : Option String :=
  (m.find? fun p => p.1 = k).map fun p => p.2

/-- `dict.get(k, dflt)`. -/
def alGetD (m : List (String × String)) (k dflt : String) : String :=
  (alGet m k).getD dflt

-- ═══════════════════════════════════════════════════════════════════════════
--  Source entities (Linear issue dicts, flattened to the fields the embedded
--  functions read; `Option` marks keys that may be absent or None).
-- ═══════════════════════════════════════════════════════════════════════════

/-- Python `x or default` for an optional string (absent or empty → default). -/
def pyOrStr (o : Option String) (dflt : String) : String :=
  match o with
  | some s => if s = "" then dflt else s
  | none => dflt

/-- Truthy projection: `some ""` and `none` both become `none`. -/
def pyOptS (o : Option String) : Option String :=
  match o with
  | some s => if s = "" then none else some s
  | none => none

structure Label where
  name : Option String

structure Person where
  name : Option String
  email : Option String

/-- A custom-field value record (`customFieldValues` entries): the nested
`customField.name` / `customField.key` and the value, which we model as a
string or an int. -/
inductive CFVal where
  | s (t : String)
  | i (n : Int)

structure CustomFieldValue where
  fieldName : Option String
  fieldKey : Option String
  value : Option CFVal

/-- A relation record: `type` and the nested `relatedIssue.id` (already
defaulted through `(rel.get("relatedIssue") or {}).get("id", "")`). -/
structure IssueRel where
  relType : Option String
  relatedId : Option String

/-- A Linear issue (or the synthetic project dict), flattened:
`labels` models `_nodes(issue.get("labels"))`, `issueTypeName` models
`(issue.get("issueType") or {}).get("name")`, `project` models
`issue.get("project")["id"]`. -/
structure Issue where
  id : Option String := none
  identifier : Option String := none
  title : Option String := none
  description : Option String := none
  priorityLabel : Option String := none
  estimate : Option JNum := none
  dueDate : Option String := none
  slaDueAt : Option String := none
  createdAt : Option String := none
  url : Option String := none
  labels : List Label := []
  issueTypeName : Option String := none
  assignee : Option Person := none
  creator : Option Person := none
  project : Option String := none
  customFieldValues : List CustomFieldValue := []
  relations : List IssueRel := []

/-- `determine_issue_type`: label lookup first (exact, case-sensitive),
then the native issue-type name, then the default. -/
def determine_issue_type (issue : Issue) : String :=
  match issue.labels.findSome? fun lbl => alGet LABEL_ISSUE_TYPE_MAP (lbl.name.getD "") with
  | some t => t
  | none =>
    let itn : String := ⟨pyStrip (pyOrStr issue.issueTypeName "").data⟩
    match alGet LABEL_ISSUE_TYPE_MAP itn with
    | some t => t
    | none => DEFAULT_ISSUE_TYPE

-- ═══════════════════════════════════════════════════════════════════════════
--  ISO dates (`_parse_iso_to_date`, `datetime.fromisoformat`,
--  `timedelta(days=float)` arithmetic, `strftime("%Y-%m-%d")`).
--  The embedded grammar is the documented `fromisoformat` one:
--  `YYYY-MM-DD[*HH[:MM[:SS[.fff[fff]]]][±HH:MM[:SS]]]`, with calendar
--  validation; exotic inputs (exponent floats, `inf`, unicode digits) are
--  outside the embedding.
-- ═══════════════════════════════════════════════════════════════════════════

/-- `s.replace("Z", "+00:00")`. -/
def replaceZ (cs : List Char) : List Char :=
  (cs.map fun c => if c = 'Z' then "+00:00".data else [c]).flatten

def digitsToNat (ds : List Char) : Nat :=
  ds.foldl (fun acc c => acc * 10 + (c.toNat - 48)) 0

/-- Read exactly `n` digits. -/
def readDigits (n : Nat) (cs : List Char) : Option (Nat × List Char) :=
  let ds := cs.take n
  if ds.length = n ∧ ds.all Char.isDigit then some (digitsToNat ds, cs.drop n)
  else none

def isLeap (y : Nat) : Bool := (y % 4 = 0 && y % 100 ≠ 0) || y % 400 = 0

def daysInMonth (y m : Nat) : Nat :=
  if m = 2 then (if isLeap y then 29 else 28)
  else if m = 4 || m = 6 || m = 9 || m = 11 then 30
  else 31

/-- Parsed datetime: year, month, day, microsecond-of-day (the timezone
offset is validated but not used: `strftime` prints the clock fields). -/
structure PyDT where
  y : Nat
  mo : Nat
  d : Nat
  us : Nat

/-- Validate and consume a trailing `±HH:MM[:SS]` offset (or nothing). -/
def parseOffsetEnd (cs : List Char) : Bool :=
  match cs with
  | [] => true
  | c :: rest =>
    if c = '+' || c = '-' then
      match readDigits 2 rest with
      | some (oh, r1) =>
        (match r1 with
         | ':' :: r2 =>
           match readDigits 2 r2 with
           | some (om, r3) =>
             (om ≤ 59 && oh * 60 + om < 24 * 60) &&
               (match r3 with
                | [] => true
                | ':' :: r4 =>
                  match readDigits 2 r4 with
                  | some (os, r5) => os ≤ 59 && r5.isEmpty
                  | none => false
                | _ => false)
           | none => false
         | _ => false)
      | none => false
    else false

/-- Fractional seconds: a dot followed by exactly 3 or 6 digits; returns the
microseconds and the remaining input. -/
def parseFrac (cs : List Char) : Option (Nat × List Char) :=
  match cs with
  | '.' :: rest =>
    let ds := rest.takeWhile Char.isDigit
    if ds.length = 3 then some (digitsToNat ds * 1000, rest.drop 3)
    else if ds.length = 6 then some (digitsToNat ds, rest.drop 6)
    else none
  | _ => none

/-- Time part `HH[:MM[:SS[.fff[fff]]]]` plus optional offset; returns the
microsecond-of-day. -/
def parseTimePart (cs : List Char) : Option Nat :=
  match readDigits 2 cs with
  | none => none
  | some (hh, r1) =>
    if hh ≥ 24 then none
    else
      match r1 with
      | ':' :: r2 =>
        match readDigits 2 r2 with
        | none => none
        | some (mi, r3) =>
          if mi ≥ 60 then none
          else
            match r3 with
            | ':' :: r4 =>
              match readDigits 2 r4 with
              | none => none
              | some (ss, r5) =>
                if ss ≥ 60 then none
                else
                  match parseFrac r5 with
                  | some (us, r6) =>
                    if parseOffsetEnd r6 then
                      some (((hh * 60 + mi) * 60 + ss) * 1000000 + us)
                    else none
                  | none =>
                    if parseOffsetEnd r5 then
                      some (((hh * 60 + mi) * 60 + ss) * 1000000)
                    else none
            | _ =>
              if parseOffsetEnd r3 then some ((hh * 60 + mi) * 60000000) else none
      | _ => if parseOffsetEnd r1 then some (hh * 3600000000) else none

/-- `datetime.fromisoformat` (documented grammar; any single separator
character between date and time). -/
def fromIsoDT (cs : List Char) : Option PyDT :=
  match readDigits 4 cs with
  | none => none
  | some (y, r1) =>
    match r1 with
    | '-' :: r2 =>
      match readDigits 2 r2 with
      | none => none
      | some (mo, r3) =>
        match r3 with
        | '-' :: r4 =>
          match readDigits 2 r4 with
          | none => none
          | some (d, r5) =>
            if 1 ≤ y ∧ 1 ≤ mo ∧ mo ≤ 12 ∧ 1 ≤ d ∧ d ≤ daysInMonth y mo then
              match r5 with
              | [] => some ⟨y, mo, d, 0⟩
              | _ :: r6 => (parseTimePart r6).map fun us => ⟨y, mo, d, us⟩
            else none
        | _ => none
    | _ => none

def pad2 (n : Nat) : String := if n < 10 then "0" ++ toString n else toString n

def pad4 (n : Nat) : String :=
  if n < 10 then "000" ++ toString n
  else if n < 100 then "00" ++ toString n
  else if n < 1000 then "0" ++ toString n
  else toString n

/-- `strftime("%Y-%m-%d")`. -/
def pyFmtDate (y mo d : Nat) : String := pad4 y ++ "-" ++ pad2 mo ++ "-" ++ pad2 d

/-- `_parse_iso_to_date`. -/
def parse_iso_to_date (s : String) : Option String :=
  (fromIsoDT (replaceZ s.data)).map fun dt => pyFmtDate dt.y dt.mo dt.d

/-- Proleptic-Gregorian day number with day 0 at 0000-03-01
(Hinnant's civil-calendar algorithm); valid for year ≥ 1. -/
def daysFromCivil (y m d : Nat) : Nat :=
  let y1 := if m ≤ 2 then y - 1 else y
  let era := y1 / 400
  let yoe := y1 % 400
  let mp := if m > 2 then m - 3 else m + 9
  let doy := (153 * mp + 2) / 5 + (d - 1)
  let doe := yoe * 365 + yoe / 4 - yoe / 100 + doy
  era * 146097 + doe

def civilFromDays (z : Nat) : Nat × Nat × Nat :=
  let era := z / 146097
  let doe := z % 146097
  let yoe := (doe - doe / 1460 + doe / 36524 - doe / 146096) / 365
  let y := yoe + era * 400
  let doy := doe - (365 * yoe + yoe / 4 - yoe / 100)
  let mp := (5 * doy + 2) / 153
  let d := doy - (153 * mp + 2) / 5 + 1
  let m := if mp < 10 then mp + 3 else mp - 9
  (if m ≤ 2 then y + 1 else y, m, d)

/-- Round to nearest, ties to even (the rounding `timedelta` applies when
converting a float day count to microseconds). -/
def roundHalfEven (q : Rat) : Int :=
  let fl := q.floor
  let r := q - fl
  if r < 1 / 2 then fl
  else if 1 / 2 < r then fl + 1
  else if fl % 2 = 0 then fl else fl + 1

/-- `dt + timedelta(days=f)`, returning the resulting civil date;  `none`
models the `OverflowError` when the result leaves year range 1..9999. -/
def addDaysFloat (dt : PyDT) (f : Rat) : Option (Nat × Nat × Nat) :=
  let base : Int := (daysFromCivil dt.y dt.mo dt.d : Int) * 86400000000 + dt.us
  let delta := roundHalfEven (f * 86400000000)
  let total := base + delta
  if total < 0 then none
  else
    let c := civilFromDays (total.toNat / 86400000000)
    if 1 ≤ c.1 ∧ c.1 ≤ 9999 then some c else none

/-- Python `float(s)` on the plain decimal grammar
`[ws][+-]digits[.digits][ws]` (exponents, `inf`, `nan` not modelled). -/
def parseFloat (s : String) : Option Rat :=
  let cs := pyStrip s.data
  let (sgn, cs1) : Int × List Char :=
    match cs with
    | '-' :: r => (-1, r)
    | '+' :: r => (1, r)
    | _ => (1, cs)
  let ip := cs1.takeWhile Char.isDigit
  let cs2 := cs1.drop ip.length
  match cs2 with
  | [] => if ip.isEmpty then none else some (sgn * digitsToNat ip)
  | '.' :: r3 =>
    let fp := r3.takeWhile Char.isDigit
    if r3.drop fp.length ≠ [] then none
    else if ip.isEmpty ∧ fp.isEmpty then none
    else some ((sgn * (digitsToNat ip * 10 ^ fp.length + digitsToNat fp) : Int) /
      ((10 : Rat) ^ fp.length))
  | _ => none

/-- Python `str(val)` for a custom-field value. -/
def cfvStr : CFVal → String
  | .s t => t
  | .i n => toString n

/-- Python `float(val)` for a custom-field value. -/
def cfvFloat : CFVal → Option Rat
  | .s t => parseFloat t
  | .i n => some n

/-- Python truthiness of a custom-field value. -/
def cfvTruthy : CFVal → Bool
  | .s t => t ≠ ""
  | .i n => n ≠ 0

/-- The custom-field loop of `resolve_due_date`: field names containing
`sli`/`sla`/`service level`, value tried as ISO date then as a float day
offset from `createdAt`; any failure falls through to the next entry. -/
def dueFromCustomFields (createdAt : Option String) :
    List CustomFieldValue → Option String
  | [] => none
  | cfv :: rest =>
    let nm := lowerStr (pyOrStr cfv.fieldName (pyOrStr cfv.fieldKey "")).data
    let tryNext := dueFromCustomFields createdAt rest
    if occursIn "sli".data nm || occursIn "sla".data nm ||
        occursIn "service level".data nm then
      match cfv.value with
      | some v =>
        if cfvTruthy v then
          match parse_iso_to_date (cfvStr v) with
          | some r => some r
          | none =>
            match createdAt with
            | none => tryNext
            | some ca =>
              match fromIsoDT (replaceZ ca.data), cfvFloat v with
              | some dt, some f =>
                match addDaysFloat dt f with
                | some c => some (pyFmtDate c.1 c.2.1 c.2.2)
                | none => tryNext
              | _, _ => tryNext
        else tryNext
      | none => tryNext
    else tryNext

/-- `resolve_due_date`: explicit due date, then the SLA timestamp's date
part, then the SLI/SLA custom-field heuristic. -/
def resolve_due_date (issue : Issue) : Option String :=
  match pyOptS issue.dueDate with
  | some d => some d
  | none =>
    match (pyOptS issue.slaDueAt).bind fun sla => parse_iso_to_date sla with
    | some r => some r
    | none => dueFromCustomFields issue.createdAt issue.customFieldValues

-- ═══════════════════════════════════════════════════════════════════════════
--  `build_jira_fields`
-- ═══════════════════════════════════════════════════════════════════════════

def build_jira_fields (issue : Issue) (project_key issue_type : String)
    (priority_map : List (String × String)) (sp_field_id : Option String)
    (epic_name_field : Option String) (epic_key : Option String)
    (assignee_map reporter_map : List (String × String)) (is_epic : Bool) :
    Fields :=
  let title : List Char := pyStrip (pyOrStr issue.title "Untitled").data
  let summary : String := ⟨title.take 250 ++ (if 250 < title.length then ['…'] else [])⟩
  let f0 : Fields := [("summary", .str summary)]
  let f1 := dictSet f0 "project" (.obj [("key", .str project_key)])
  let f2 := dictSet f1 "issuetype" (.obj [("name", .str issue_type)])
  -- description deliberately not set (applied after creation by update_issue)
  let f3 := match (if is_epic then pyOptS epic_name_field else none) with
    | some enf => dictSet f2 enf (.str ⟨title.take 250⟩)
    | none => f2
  let f4 := match (if is_epic then none else pyOptS epic_key) with
    | some ek => dictSet f3 "parent" (.obj [("key", .str ek)])
    | none => f3
  let linear_p := pyOrStr issue.priorityLabel "No priority"
  let f5 := dictSet f4 "priority" (.obj [("name", .str (alGetD priority_map linear_p "Medium"))])
  let f6 := match pyOptS sp_field_id, issue.estimate with
    | some spid, some e => dictSet f5 spid (.num (.float e.toRat))
    | _, _ => f5
  let f7 := match resolve_due_date issue with
    | some due => if due ≠ "" then dictSet f6 "duedate" (.str due) else f6
    | none => f6
  let type_labels : List (List Char) :=
    (LABEL_ISSUE_TYPE_MAP.map fun p => lowerStr p.1.data) ++
      (TRIAGE_LABEL_NAMES.map fun s => s.data)
  let identifier := issue.identifier.getD ""
  let jl0 : List String :=
    if identifier ≠ "" then [⟨"linear-".data ++ identifier.data⟩] else []
  let jira_labels := jl0 ++ issue.labels.filterMap fun lbl =>
    let nm := pyStrip (pyOrStr lbl.name "").data
    if nm ≠ [] ∧ ¬ lowerStr nm ∈ type_labels then
      some (⟨nm.map fun c => if c = ' ' then '-' else c⟩ : String)
    else none
  let f8 := if jira_labels ≠ [] then dictSet f7 "labels" (.arr (jira_labels.map .str)) else f7
  let f9 := match issue.assignee with
    | some a =>
      let ae : String := ⟨lowerStr (pyOrStr a.email "").data⟩
      let aid := if ae ≠ "" then alGet assignee_map ae else none
      match aid with
      | some x => if x ≠ "" then dictSet f8 "assignee" (.obj [("accountId", .str x)]) else f8
      | none => f8
    | none => f8
  match issue.creator with
  | some cr =>
    match pyOptS cr.email with
    | some em =>
      match alGet reporter_map ⟨lowerStr em.data⟩ with
      | some rid =>
        if rid ≠ "" then dictSet f9 "reporter" (.obj [("accountId", .str rid)]) else f9
      | none => f9
    | none => f9
  | none => f9

-- The same pipeline cut into its stages (summary/project/issuetype/epic
-- name/parent/priority; story points; due date; labels; assignee; reporter),
-- for stage-local reasoning; `build_jira_fields_staged` below proves the cut
-- faithful.

/-- Stages `f0`–`f5` of `build_jira_fields` (everything before the
story-points write). -/
def bjfBase (issue : Issue) (project_key issue_type : String)
    (priority_map : List (String × String))
    (epic_name_field epic_key : Option String) (is_epic : Bool) : Fields :=
  let title : List Char := pyStrip (pyOrStr issue.title "Untitled").data
  let summary : String := ⟨title.take 250 ++ (if 250 < title.length then ['…'] else [])⟩
  let f0 : Fields := [("summary", .str summary)]
  let f1 := dictSet f0 "project" (.obj [("key", .str project_key)])
  let f2 := dictSet f1 "issuetype" (.obj [("name", .str issue_type)])
  let f3 := match (if is_epic then pyOptS epic_name_field else none) with
    | some enf => dictSet f2 enf (.str ⟨title.take 250⟩)
    | none => f2
  let f4 := match (if is_epic then none else pyOptS epic_key) with
    | some ek => dictSet f3 "parent" (.obj [("key", .str ek)])
    | none => f3
  let linear_p := pyOrStr issue.priorityLabel "No priority"
  dictSet f4 "priority" (.obj [("name", .str (alGetD priority_map linear_p "Medium"))])

/-- The due-date stage of `build_jira_fields`. -/
def bjfDueStage (issue : Issue) (d : Fields) : Fields :=
  match resolve_due_date issue with
  | some due => if due ≠ "" then dictSet d "duedate" (.str due) else d
  | none => d

/-- The labels stage of `build_jira_fields`. -/
def bjfLabelsStage (issue : Issue) (d : Fields) : Fields :=
  let type_labels : List (List Char) :=
    (LABEL_ISSUE_TYPE_MAP.map fun p => lowerStr p.1.data) ++
      (TRIAGE_LABEL_NAMES.map fun s => s.data)
  let identifier := issue.identifier.getD ""
  let jl0 : List String :=
    if identifier ≠ "" then [⟨"linear-".data ++ identifier.data⟩] else []
  let jira_labels := jl0 ++ issue.labels.filterMap fun lbl =>
    let nm := pyStrip (pyOrStr lbl.name "").data
    if nm ≠ [] ∧ ¬ lowerStr nm ∈ type_labels then
      some (⟨nm.map fun c => if c = ' ' then '-' else c⟩ : String)
    else none
  if jira_labels ≠ [] then dictSet d "labels" (.arr (jira_labels.map .str)) else d

/-- The assignee stage of `build_jira_fields`. -/
def bjfAssigneeStage (issue : Issue) (assignee_map : List (String × String))
    (d : Fields) : Fields :=
  match issue.assignee with
  | some a =>
    let ae : String := ⟨lowerStr (pyOrStr a.email "").data⟩
    let aid := if ae ≠ "" then alGet assignee_map ae else none
    match aid with
    | some x => if x ≠ "" then dictSet d "assignee" (.obj [("accountId", .str x)]) else d
    | none => d
  | none => d

/-- The reporter stage of `build_jira_fields`. -/
def bjfReporterStage (issue : Issue) (reporter_map : List (String × String))
    (d : Fields) : Fields :=
  match issue.creator with
  | some cr =>
    match pyOptS cr.email with
    | some em =>
      match alGet reporter_map ⟨lowerStr em.data⟩ with
      | some rid =>
        if rid ≠ "" then dictSet d "reporter" (.obj [("accountId", .str rid)]) else d
      | none => d
    | none => d
  | none => d

-- ═══════════════════════════════════════════════════════════════════════════
--  `_try_create_issue`: the bounded self-healing retry loop.
--
--  The Jira `create_issue` call is an oracle indexed by the attempt number;
--  an error is its message string (what `str(exc)` yields).  The mutable
--  dict `current` is modelled through an explicit heap so that the frame
--  property "the caller's dict is never mutated" is expressible: the loop
--  reads the caller's cell once, allocates a fresh cell for the copy
--  `current = dict(fields)`, and every repair writes only that fresh cell.
-- ═══════════════════════════════════════════════════════════════════════════

/-- Literal `"data was not an array"` in quotes, as it appears in the regex
`"([^"]+)":\s*"data was not an array"`. -/
def dnaLit : List Char := '"' :: "data was not an array".data ++ ['"']

/-- Match the bad-field-name pattern at the start of the input; returns the
captured field name and the rest after the match. -/
def matchBadNameAt : List Char → Option (List Char × List Char)
  | '"' :: cs =>
    match takeUntil '"' cs with
    | some (name, r1) =>
      if name.isEmpty then none
      else
        match r1 with
        | ':' :: r2 =>
          let r3 := r2.dropWhile pyWS
          if dnaLit.isPrefixOf r3 then some (name, r3.drop dnaLit.length) else none
        | _ => none
    | none => none
  | _ => none

/-- `re.findall` of the bad-field-name pattern (leftmost, non-overlapping). -/
def findBadNamesGo : Nat → List Char → List (List Char) → List (List Char)
  | 0, _, acc => acc.reverse
  | _ + 1, [], acc => acc.reverse
  | fuel + 1, c :: cs, acc =>
    match matchBadNameAt (c :: cs) with
    | some (name, rest) => findBadNamesGo fuel rest (name :: acc)
    | none => findBadNamesGo fuel cs acc

def findBadNames (msg : List Char) : List (List Char) :=
  findBadNamesGo (msg.length + 1) msg []

/-- The field metadata returned by `jira.get_fields()` (`id` and `name`,
either possibly missing), or `none` when the call itself raised (the
exception is swallowed and the name table stays empty). -/
abbrev GetFieldsOracle := Option (List (Option String × Option String))

/-- Build `name_to_id` (lower-cased name → id) from the metadata; later
entries overwrite earlier ones as dict assignment does. -/
def buildNameToId (gf : GetFieldsOracle) : List (List Char × String) :=
  match gf with
  | none => []
  | some fs =>
    fs.foldl
      (fun acc p =>
        match pyOptS p.1, pyOptS p.2 with
        | some fid, some fname =>
          let key := lowerStr fname.data
          if (acc.find? fun q => q.1 = key).isSome then
            acc.map fun q => if q.1 = key then (key, fid) else q
          else acc ++ [(key, fid)]
        | _, _ => acc)
      []

/-- The repair pass for a `"was not an array"` error: resolve each reported
field name to an id and drop it from the payload; fails (re-raise) when no
reported field could be dropped. -/
def repairArrayError (gf : GetFieldsOracle) (msg : List Char) (cur : Fields) :
    Option Fields :=
  let badNames := findBadNames msg
  if badNames.isEmpty then none
  else
    let nameToId := buildNameToId gf
    let step := badNames.foldl
      (fun (st : Fields × Bool) fname =>
        match (nameToId.find? fun q => q.1 = lowerStr fname).map fun q => q.2 with
        | some fid => if dictMem st.1 fid then (dictPop st.1 fid, true) else st
        | none => st)
      (cur, false)
    if step.2 then some step.1 else none

/-- Classify one creation error and apply its single structural repair;
`none` means the error is unrecoverable and is re-raised.  The branch order
is the source's: array-shape error, then reporter, then parent/hierarchy. -/
def classifyRepair (gf : GetFieldsOracle) (msg : String) (cur : Fields) :
    Option Fields :=
  let m := msg.data
  if occursIn "was not an array".data m then repairArrayError gf m cur
  else if occursIn ('"' :: "reporter".data ++ ['"']) m then
    some (dictPop cur "reporter")
  else
    let ml := lowerStr m
    if occursIn "parent".data ml || occursIn "customfield_10014".data ml then
      let pv := dictGet cur "parent"
      let cur1 := dictPop cur "parent"
      match pv with
      | some v =>
        if v.truthy ∧ ¬ dictMem cur1 "customfield_10014" then
          some (dictSet cur1 "customfield_10014" (jvalGet v "key" (.str "")))
        else if dictMem cur1 "customfield_10014" then
          some (dictPop cur1 "customfield_10014")
        else some cur1
      | none =>
        if dictMem cur1 "customfield_10014" then
          some (dictPop cur1 "customfield_10014")
        else some cur1
    else none

/-- A heap of dict cells; references are indices. -/
structure Heap where
  cells : List Fields

def hget (h : Heap) (r : Nat) : Fields := (h.cells.getD r [])

def hset (h : Heap) (r : Nat) (v : Fields) : Heap := ⟨h.cells.set r v⟩

def halloc (h : Heap) (v : Fields) : Nat × Heap :=
  (h.cells.length, ⟨h.cells ++ [v]⟩)

/-- The create-call oracle: attempt index → payload → key/id dict or error
message. -/
abbrev CreateOracle := Nat → Fields → Except String JVal

/-- One trace entry per `jira.create_issue` call: payload sent and outcome. -/
abbrev CreateTrace := List (Fields × Except String JVal)

/-- The `for _pass in range(4)` loop.  On each failure the error is
classified; a repairable error updates the private cell and continues, an
unrecoverable one is raised at once; after the final iteration the last
error is raised. -/
def tryCreateGo (create : CreateOracle) (gf : GetFieldsOracle) :
    Nat → Nat → Option String → Heap → Nat → CreateTrace →
    (Except String JVal × CreateTrace) × Heap
  | 0, _, lastExc, h, _, trace => ((.error (lastExc.getD ""), trace.reverse), h)
  | rem + 1, idx, _, h, curRef, trace =>
    let cur := hget h curRef
    match create idx cur with
    | .ok r => ((.ok r, ((cur, .ok r) :: trace).reverse), h)
    | .error e =>
      match classifyRepair gf e cur with
      | some cur2 =>
        tryCreateGo create gf rem (idx + 1) (some e) (hset h curRef cur2)
          curRef ((cur, .error e) :: trace)
      | none => ((.error e, ((cur, .error e) :: trace).reverse), h)

/-- `_try_create_issue` acting on a caller-owned dict cell: read the caller's
dict, allocate the private copy, run the bounded loop. -/
def try_create_issue_heap (create : CreateOracle) (gf : GetFieldsOracle)
    (h : Heap) (fieldsRef : Nat) : (Except String JVal × CreateTrace) × Heap :=
  let fields := hget h fieldsRef
  let a := halloc h fields
  tryCreateGo create gf 4 0 none a.2 a.1 []

/-- `_try_create_issue` as a pure function of the payload value. -/
def try_create_issue (create : CreateOracle) (gf : GetFieldsOracle)
    (fields : Fields) : Except String JVal × CreateTrace :=
  (try_create_issue_heap create gf ⟨[fields]⟩ 0).1

-- ═══════════════════════════════════════════════════════════════════════════
--  Mapping store (`load_mapping`, `save_mapping`, `_check_existing_mapping`)
-- ═══════════════════════════════════════════════════════════════════════════

abbrev Mapping := List (String × String)

def mapGet (m : Mapping) (k : String) : Option String :=
  (m.find? fun p => p.1 = k).map fun p => p.2

def mapMem (m : Mapping) (k : String) : Bool := (m.find? fun p => p.1 = k).isSome

def mapSet (m : Mapping) (k v : String) : Mapping :=
  if mapMem m k then m.map fun p => if p.1 = k then (k, v) else p
  else m ++ [(k, v)]

def mapDel (m : Mapping) (k : String) : Mapping := m.filter fun p => p.1 ≠ k

/-- What `json.load` produced: a key→key table, or some other JSON value. -/
inductive PyJson where
  | table (m : Mapping)
  | nonTable

/-- `load_mapping`: absent file → empty mapping; unparseable contents →
empty mapping; otherwise whatever the parse produced.  The filesystem and
`json.load` are oracles: `file` is the file's contents when it exists and
`parse` is the JSON reader (`none` = `json.load` raised). -/
def load_mapping (file : Option String) (parse : String → Option PyJson) : PyJson :=
  match file with
  | none => .table []
  | some contents => (parse contents).getD (.table [])

/-- `_check_existing_mapping`: returns (result, mapping after the call,
snapshots passed to `save_mapping`).  A hit whose destination issue still
exists returns the existing key; a stale hit is evicted and persisted and
the probe reports `None`. -/
def check_existing_mapping (mapping : Mapping) (key : String)
    (issueExists : String → Bool) : Option String × Mapping × List Mapping :=
  match mapGet mapping key with
  | none => (none, mapping, [])
  | some jkey =>
    if issueExists jkey then (some jkey, mapping, [])
    else
      let m2 := mapDel mapping key
      (none, m2, [m2])

-- ═══════════════════════════════════════════════════════════════════════════
--  `upload_images_and_build_description` and `_create_one_issue`
--  (network collaborators as oracles; bytes as opaque tokens)
-- ═══════════════════════════════════════════════════════════════════════════

structure MigrateOracles where
  /-- `jira.issue_exists` (already swallows its own errors). -/
  issueExists : String → Bool
  /-- `jira.create_issue`, indexed by the running attempt count. -/
  create : CreateOracle
  /-- `jira.get_fields()` as consumed by the array-shape repair. -/
  getFields : GetFieldsOracle
  /-- `linear_download_file`: url → opaque byte token, `none` on failure. -/
  download : String → Option Nat
  /-- `jira.upload_attachment key filename bytes`: error message, or the
  attachment record's (`id`, `content`) with `""` defaults, or `none` when
  the response body was unexpected. -/
  upload : String → String → Nat → Except String (Option (String × String))
  /-- `jira.get_media_uuid_for_attachment`. -/
  getMediaUuid : String → Option String

/-- `url.split("?")[0]` then `os.path.basename`. -/
def basenameBeforeQuery (url : String) : String :=
  let q := url.data.takeWhile fun c => c ≠ '?'
  ⟨(q.reverse.takeWhile fun c => c ≠ '/').reverse⟩

/-- `re.sub(r"[^\w\-.]", "_", alt)`: keep word chars, `-` and `.`. -/
def sanitizeAlt (alt : String) : List Char :=
  alt.data.map fun c =>
    if c.isAlphanum || c = '_' || c = '-' || c = '.' then c else '_'

/-- Substitution-table insertion (`media_map[url] = entry`). -/
def mediaSet (m : List (String × MediaEntry)) (k : String) (v : MediaEntry) :
    List (String × MediaEntry) :=
  if (m.find? fun p => p.1 = k).isSome then
    m.map fun p => if p.1 = k then (k, v) else p
  else m ++ [(k, v)]

/-- `upload_images_and_build_description`: download every referenced image,
upload it as an attachment, resolve its inline media handle, and build the
final description from the resulting substitution table. -/
def upload_images_and_build_description (oc : MigrateOracles)
    (description_md : String) (jira_key jira_issue_id : String) : AdfDoc :=
  let collection := if jira_issue_id ≠ "" then "contentId-" ++ jira_issue_id else ""
  let image_urls := extract_image_urls description_md
  if image_urls.isEmpty then build_description_adf_with_media description_md []
  else
    let media_map := image_urls.foldl
      (fun mm p =>
        let alt := p.1
        let url := p.2
        match oc.download url with
        | none => mm
        | some fileTok =>
          let fname0 := basenameBeforeQuery url
          let filename : String :=
            if fname0 = "" ∨ ¬ fname0.data.contains '.' then
              ⟨(sanitizeAlt (pyOrStr (some alt) "image")).take 40 ++ ".png".data⟩
            else fname0
          match oc.upload jira_key filename fileTok with
          | .error _ => mm
          | .ok none => mm
          | .ok (some att) =>
            let uuid := if att.1 ≠ "" then oc.getMediaUuid att.1 else none
            match pyOptS uuid with
            | some u => mediaSet mm url (.file u collection)
            | none =>
              if att.2 ≠ "" then mediaSet mm url (.external att.2) else mm)
      []
    build_description_adf_with_media description_md media_map

/-- Result of `_create_one_issue`: the `(created, skipped, failed)` flags,
the mapping and the `save_mapping` snapshots after the call, the
`create_issue` calls made, and the description update issued (if any). -/
structure OneIssueResult where
  created : Bool
  skipped : Bool
  failed : Bool
  mapping : Mapping
  saves : List Mapping
  createTrace : CreateTrace
  descUpdate : Option (String × AdfDoc)

/-- `_create_one_issue`: consult the mapping (with reachability probe),
build the payload, create through the self-healing loop, persist the new
mapping entry, then upload inline images and update the description. -/
def create_one_issue (oc : MigrateOracles) (issue : Issue)
    (project_key : String) (epic_map : List (String × String))
    (mapping : Mapping) (priority_map : List (String × String))
    (sp_field_id epic_name_field : Option String)
    (assignee_map reporter_map : List (String × String)) : OneIssueResult :=
  let linear_id := issue.id.getD ""
  let chk := check_existing_mapping mapping linear_id oc.issueExists
  let mapping1 := chk.2.1
  let saves1 := chk.2.2
  match pyOptS chk.1 with
  | some _existing => ⟨false, true, false, mapping1, saves1, [], none⟩
  | none =>
    let epic_key := issue.project.bind fun pid => alGet epic_map pid
    let issue_type := determine_issue_type issue
    let issue_desc : List Char := pyStrip (pyOrStr issue.description "").data
    let fields := build_jira_fields issue project_key issue_type priority_map
      sp_field_id epic_name_field epic_key assignee_map reporter_map false
    let tc := try_create_issue oc.create oc.getFields fields
    match tc.1 with
    | .error _ => ⟨false, false, true, mapping1, saves1, tc.2, none⟩
    | .ok result =>
      match jvalStrAt result "key" with
      | none =>
        -- `result["key"]` raised; the surrounding except records a failure
        ⟨false, false, true, mapping1, saves1, tc.2, none⟩
      | some jira_key =>
        let jira_issue_id := (jvalStrAt result "id").getD ""
        let mapping2 := mapSet mapping1 linear_id jira_key
        let saves2 := saves1 ++ [mapping2]
        let desc_adf :=
          if issue_desc ≠ [] then
            upload_images_and_build_description oc ⟨issue_desc⟩ jira_key jira_issue_id
          else ⟨1, "doc", []⟩
        ⟨true, false, false, mapping2, saves2, tc.2, some (jira_key, desc_adf)⟩

-- ═══════════════════════════════════════════════════════════════════════════
--  `phase_create_links`
-- ═══════════════════════════════════════════════════════════════════════════

/-- `tuple(sorted([outward, inward]))`. -/
def sortPair (a b : String) : String × String := if a ≤ b then (a, b) else (b, a)

/-- State of the link-creation loop: the dedup set, the link calls issued
(in order), and the created/skipped/failed counters. -/
structure LinkState where
  linkedPairs : List (String × String × String)
  calls : List (String × String × String)
  created : Nat
  skipped : Nat
  failed : Nat

def initLinkState : LinkState := ⟨[], [], 0, 0, 0⟩

/-- Process one relation record of an issue whose Jira key is `jira_key`. -/
def linkRelStep (linkOk : String → String → String → Bool) (mapping : Mapping)
    (jira_key : String) (st : LinkState) (rel : IssueRel) : LinkState :=
  let rel_type : String := ⟨lowerStr (pyOrStr rel.relType "").data⟩
  let related_id := rel.relatedId.getD ""
  match pyOptS (mapGet mapping related_id) with
  | none => { st with skipped := st.skipped + 1 }
  | some related_key =>
    let link_type := alGetD RELATION_TYPE_MAP rel_type "Relates"
    let dir :=
      if rel_type = "blocked_by" ∨ rel_type = "duplicate_by" then
        (related_key, jira_key)
      else (jira_key, related_key)
    let pair := (link_type, sortPair dir.1 dir.2)
    if pair ∈ st.linkedPairs then st
    else
      let st1 := { st with linkedPairs := st.linkedPairs ++ [pair],
                           calls := st.calls ++ [(link_type, dir.1, dir.2)] }
      if linkOk link_type dir.1 dir.2 then { st1 with created := st1.created + 1 }
      else { st1 with failed := st1.failed + 1 }

/-- `phase_create_links`: for every issue with a mapped key, create one
deduplicated destination link per relation record whose other endpoint is
also mapped. -/
def phase_create_links (issues : List Issue) (mapping : Mapping)
    (linkOk : String → String → String → Bool) : LinkState :=
  issues.foldl
    (fun st issue =>
      match pyOptS (mapGet mapping (issue.id.getD "")) with
      | none => st
      | some jira_key => issue.relations.foldl (linkRelStep linkOk mapping jira_key) st)
    initLinkState

/-- The literal text `"[image: image]"`: the label an image reference with
empty alt text renders to inside `_inline_marks`; every label the image
branch can emit is built from this prefix and the alt text. -/
def imgLabelFull : List Char := imgLabelOpen ++ ['i', 'm', 'a', 'g', 'e', ']']

/-- A creation-error message that matches none of the three repairable
signatures of `_try_create_issue`: no `"was not an array"`, no quoted
`"reporter"`, and neither `parent` nor `customfield_10014` in lower case. -/
def noSigMsg (e : String) : Bool :=
  !(occursIn "was not an array".data e.data) &&
    !(occursIn ('"' :: "reporter".data ++ ['"']) e.data) &&
    !(occursIn "parent".data (lowerStr e.data)) &&
    !(occursIn "customfield_10014".data (lowerStr e.data))

/-- The `type_labels` set of `build_jira_fields`: lower-cased keys of
`LABEL_ISSUE_TYPE_MAP` plus `TRIAGE_LABEL_NAMES`. -/
def typeLabelNames : List (List Char) :=
  (LABEL_ISSUE_TYPE_MAP.map fun p => lowerStr p.1.data) ++
    (TRIAGE_LABEL_NAMES.map fun s => s.data)

-- ═══════════════════════════════════════════════════════════════════════════
-- ═══════════════════════════════════════════════════════════════════════════
--  THEOREMS
-- ═══════════════════════════════════════════════════════════════════════════
-- ═══════════════════════════════════════════════════════════════════════════

section ListLemmas

variable {α : Type} {u a b : List α}

theorem prefix_append_cases (h : u <+: a ++ b) :
    u <+: a ∨ ∃ v, u = a ++ v ∧ v <+: b := by
  induction a generalizing u with
  | nil => exact Or.inr ⟨u, rfl, h⟩
  | cons c a ih =>
    cases u with
    | nil => exact Or.inl List.nil_prefix
    | cons d u =>
      rw [List.cons_append, List.cons_prefix_cons] at h
      obtain ⟨rfl, h2⟩ := h
      rcases ih h2 with h3 | ⟨v, rfl, hv⟩
      · exact Or.inl (List.cons_prefix_cons.mpr ⟨rfl, h3⟩)
      · exact Or.inr ⟨v, rfl, hv⟩

theorem infix_append_cases (h : u <:+: a ++ b) :
    u <:+: a ∨ u <:+: b ∨
      ∃ u1 u2, u = u1 ++ u2 ∧ u1 ≠ [] ∧ u2 ≠ [] ∧ u1 <:+ a ∧ u2 <+: b := by
  induction a generalizing u with
  | nil => exact Or.inr (Or.inl h)
  | cons c a ih =>
    rw [List.cons_append, List.infix_cons_iff] at h
    rcases h with h | h
    · rw [← List.cons_append] at h
      rcases prefix_append_cases h with h1 | ⟨v, rfl, hv⟩
      · exact Or.inl h1.isInfix
      · cases v with
        | nil => exact Or.inl (by simp)
        | cons x xs =>
          exact Or.inr (Or.inr ⟨c :: a, x :: xs, rfl, by simp, by simp,
            List.suffix_refl _, hv⟩)
    · rcases ih h with h1 | h1 | ⟨u1, u2, rfl, h2, h3, h4, h5⟩
      · exact Or.inl (List.infix_cons h1)
      · exact Or.inr (Or.inl h1)
      · exact Or.inr (Or.inr ⟨u1, u2, rfl, h2, h3,
          h4.trans (List.suffix_cons c a), h5⟩)

end ListLemmas

/-- A non-empty prefix of `c :: l` contains `c`. -/
theorem mem_of_prefix_cons {u : List Char} {c : Char} {l : List Char}
    (h : u <+: c :: l) (hu : u ≠ []) : c ∈ u := by
  cases u with
  | nil => exact absurd rfl hu
  | cons d u =>
    rw [List.cons_prefix_cons] at h
    simp [h.1]

/-- If `u` is non-empty, avoids the separator, and occurs in no part, it
does not occur in the separator-joined parts. -/
theorem joinSep_no_occurrence (sep : Char) (u : List Char) (hu : u ≠ [])
    (hsep : sep ∉ u) (parts : List (List Char))
    (hp : ∀ p ∈ parts, ¬ u <:+: p) : ¬ u <:+: joinSep sep parts := by
  induction parts with
  | nil =>
    intro h
    rw [joinSep] at h
    exact hu (List.eq_nil_of_infix_nil h)
  | cons l ls ih =>
    cases ls with
    | nil => exact hp l (by simp)
    | cons x xs =>
      intro h
      have hj : joinSep sep (l :: x :: xs) = l ++ sep :: joinSep sep (x :: xs) := rfl
      rw [hj] at h
      rcases infix_append_cases h with h1 | h1 | ⟨u1, u2, hu12, h2, h3, _, h5⟩
      · exact hp l (by simp) h1
      · rw [List.infix_cons_iff] at h1
        rcases h1 with h1 | h1
        · exact hsep (mem_of_prefix_cons h1 hu)
        · exact ih (fun p hmem => hp p (by simp [hmem])) h1
      · exact hsep (hu12 ▸ List.mem_append_right u1 (mem_of_prefix_cons h5 h3))

-- ───────────────────────────────────────────────────────────────────────────
--  Matcher specification lemmas
-- ───────────────────────────────────────────────────────────────────────────

theorem takeUntil_spec {stop : Char} :
    ∀ {cs a b : List Char}, takeUntil stop cs = some (a, b) →
      cs = a ++ stop :: b ∧ stop ∉ a
  | [], a, b, h => by simp [takeUntil] at h
  | c :: cs, a, b, h => by
    rw [takeUntil] at h
    by_cases hc : c = stop
    · simp [hc] at h
      obtain ⟨rfl, rfl⟩ := h
      simp [hc]
    · simp [hc] at h
      match h1 : takeUntil stop cs with
      | none => rw [h1] at h; simp at h
      | some (a1, b1) =>
        rw [h1] at h
        simp at h
        obtain ⟨rfl, rfl⟩ := h
        obtain ⟨he, hm⟩ := takeUntil_spec h1
        exact ⟨by simp [he], by simp [hm, Ne.symm hc]⟩

theorem findDelim_spec {d : List Char} :
    ∀ {cs a b : List Char}, findDelim d cs = some (a, b) → cs = a ++ d ++ b
  | [], a, b, h => by simp [findDelim] at h
  | c :: cs, a, b, h => by
    rw [findDelim] at h
    by_cases hp : d.isPrefixOf (c :: cs)
    · simp [hp] at h
      obtain ⟨rfl, rfl⟩ := h
      have := (List.isPrefixOf_iff_prefix).mp hp
      obtain ⟨t, ht⟩ := this
      simp [← ht]
    · simp [hp] at h
      match h1 : findDelim d cs with
      | none => rw [h1] at h; simp at h
      | some (a1, b1) =>
        rw [h1] at h
        simp at h
        obtain ⟨rfl, rfl⟩ := h
        have := findDelim_spec h1
        simp [this]

theorem findClose_spec {d : List Char} {cs a b : List Char}
    (h : findClose d cs = some (a, b)) : cs = a ++ d ++ b ∧ a ≠ [] := by
  match cs with
  | [] => simp [findClose] at h
  | c :: cs =>
    rw [findClose] at h
    match h1 : findDelim d cs with
    | none => rw [h1] at h; simp at h
    | some (a1, b1) =>
      rw [h1] at h
      simp at h
      obtain ⟨rfl, rfl⟩ := h
      exact ⟨by simp [findDelim_spec h1], by simp⟩

theorem matchImageAt_spec {cs : List Char} {m : ImgMatch} {rest : List Char}
    (h : matchImageAt cs = some (m, rest)) :
    cs = '!' :: '[' :: m.alt ++ ']' :: '(' :: m.url ++ ')' :: rest ∧
      m.url ≠ [] := by
  rw [matchImageAt.eq_def] at h
  split at h
  next cs2 =>
    split at h
    next alt rest1 h1 =>
      split at h
      next rest2 =>
        split at h
        next url rest3 h2 =>
          split at h
          next => exact absurd h (by simp)
          next hn =>
            obtain ⟨⟨rfl, rfl⟩, rfl⟩ :
                ({ alt := alt, url := url } : ImgMatch) = m ∧ rest3 = rest := by
              simpa using h
            obtain ⟨he1, _⟩ := takeUntil_spec h1
            obtain ⟨he2, _⟩ := takeUntil_spec h2
            exact ⟨by simp [he1, he2], by simpa using hn⟩
        next => exact absurd h (by simp)
      next => exact absurd h (by simp)
    next => exact absurd h (by simp)
  next => exact absurd h (by simp)

theorem matchLinkAt_spec {cs : List Char} {txt url rest : List Char}
    (h : matchLinkAt cs = some ((txt, url), rest)) :
    cs = '[' :: txt ++ ']' :: '(' :: url ++ ')' :: rest ∧ txt ≠ [] ∧ url ≠ [] := by
  rw [matchLinkAt.eq_def] at h
  split at h
  next cs2 =>
    split at h
    next txt1 rest1 h1 =>
      split at h
      next url1 rest2 h2 =>
        obtain ⟨⟨rfl, rfl⟩, rfl⟩ : (txt1 = txt ∧ url1 = url) ∧ rest2 = rest := by
          simpa using h
        obtain ⟨he1, hn1⟩ := findClose_spec h1
        obtain ⟨he2, hn2⟩ := findClose_spec h2
        exact ⟨by simp [he1, he2], hn1, hn2⟩
      next => exact absurd h (by simp)
    next => exact absurd h (by simp)
  next => exact absurd h (by simp)

theorem orElse_eq_some {α : Type} {a : Option α} {b : Option α} {x : α}
    (h : (a <|> b) = some x) : a = some x ∨ b = some x := by
  cases a with
  | none => right; simpa [Option.orElse] using h
  | some y => left; simpa [Option.orElse] using h

/-- Case split over the eight alternations of `tryTok`. -/
theorem tryTok_cases {cs : List Char} {node : ADF} {rest : List Char}
    (h : tryTok cs = some (node, rest)) :
    tokBoldItalic cs = some (node, rest) ∨ tokBold cs = some (node, rest) ∨
    tokItalicStar cs = some (node, rest) ∨ tokItalicUnder cs = some (node, rest) ∨
    tokStrike cs = some (node, rest) ∨ tokCode cs = some (node, rest) ∨
    tokImage cs = some (node, rest) ∨ tokLink cs = some (node, rest) := by
  rw [tryTok] at h
  rcases orElse_eq_some h with h | h
  · exact Or.inl h
  rcases orElse_eq_some h with h | h
  · exact Or.inr (Or.inl h)
  rcases orElse_eq_some h with h | h
  · exact Or.inr (Or.inr (Or.inl h))
  rcases orElse_eq_some h with h | h
  · exact Or.inr (Or.inr (Or.inr (Or.inl h)))
  rcases orElse_eq_some h with h | h
  · exact Or.inr (Or.inr (Or.inr (Or.inr (Or.inl h))))
  rcases orElse_eq_some h with h | h
  · exact Or.inr (Or.inr (Or.inr (Or.inr (Or.inr (Or.inl h)))))
  rcases orElse_eq_some h with h | h
  · exact Or.inr (Or.inr (Or.inr (Or.inr (Or.inr (Or.inr (Or.inl h))))))
  · exact Or.inr (Or.inr (Or.inr (Or.inr (Or.inr (Or.inr (Or.inr h))))))

/-- Provenance of the six styled-delimiter tokens: the emitted content is a
non-empty infix of the input and the rest is a strictly shorter suffix. -/
theorem tok_generic_spec {cs : List Char} {opener delim : List Char}
    {marks : List Mark} {node : ADF} {rest : List Char}
    (h : (if opener.isPrefixOf cs then
        (findClose delim (cs.drop opener.length)).map
          fun p => (ADF.text ⟨p.1⟩ marks, p.2)
      else none) = some (node, rest)) (hop : opener ≠ []) :
    ∃ content, node = .text ⟨content⟩ marks ∧ content <:+: cs ∧
      rest <:+ cs ∧ rest.length < cs.length := by
  split at h
  next hpre =>
    obtain ⟨t, ht⟩ := List.isPrefixOf_iff_prefix.mp hpre
    match h1 : findClose delim (cs.drop opener.length) with
    | none => rw [h1] at h; exact absurd h (by simp)
    | some (content, rest1) =>
      rw [h1] at h
      obtain ⟨rfl, rfl⟩ : ADF.text ⟨content⟩ marks = node ∧ rest1 = rest := by
        simpa using h
      have hdrop : cs.drop opener.length = t := by
        rw [← ht, List.drop_left]
      rw [hdrop] at h1
      obtain ⟨he, hne⟩ := findClose_spec h1
      have htsuf : t <:+ cs := ht ▸ List.suffix_append opener t
      refine ⟨content, rfl, ?_, ?_, ?_⟩
      · have h2 : content <+: t := by
          rw [he, List.append_assoc]; exact List.prefix_append _ _
        exact h2.isInfix.trans htsuf.isInfix
      · have h3 : rest1 <:+ t := by rw [he]; exact List.suffix_append _ _
        exact h3.trans htsuf
      · have hl1 : cs.length = opener.length + t.length := by rw [← ht]; simp
        have hl2 := congrArg List.length he
        simp at hl2
        have : 1 ≤ opener.length := List.length_pos.mpr hop
        omega
  next => exact absurd h (by simp)

theorem mem_of_suffix_concat {u1 l : List Char} {c : Char} (h : u1 <:+ l ++ [c])
    (hne : u1 ≠ []) : c ∈ u1 := by
  obtain ⟨w, hw⟩ := h
  have hne2 : w ++ u1 ≠ [] := by simp [hne]
  have h1 : (w ++ u1).getLast hne2 = u1.getLast hne :=
    List.getLast_append_of_ne_nil hne
  have h2 : (l ++ [c]).getLast (by simp) = c := by
    rw [List.getLast_append_of_ne_nil (by simp)]
    simp
  have h3 : u1.getLast hne = c := by
    rw [← h1]
    rw [← h2]
    congr 1
  exact h3 ▸ List.getLast_mem hne

theorem tokImage_spec {cs : List Char} {node : ADF} {rest : List Char}
    (h : tokImage cs = some (node, rest)) :
    ∃ m : ImgMatch,
      node = .text ⟨imgLabelOpen ++
          (if m.alt.isEmpty then ['i', 'm', 'a', 'g', 'e'] else m.alt) ++ [']']⟩
        [.link ⟨m.url⟩] ∧
      cs = '!' :: '[' :: m.alt ++ ']' :: '(' :: m.url ++ ')' :: rest ∧
      m.url ≠ [] := by
  rw [tokImage] at h
  match h1 : matchImageAt cs with
  | none => rw [h1] at h; exact absurd h (by simp)
  | some (m, rest1) =>
    rw [h1] at h
    obtain ⟨hn, rfl⟩ :
        (ADF.text ⟨imgLabelOpen ++
            (if m.alt.isEmpty then ['i', 'm', 'a', 'g', 'e'] else m.alt) ++ [']']⟩
          [.link ⟨m.url⟩] = node) ∧ rest1 = rest := by
      simpa [List.append_assoc] using h
    obtain ⟨he, hu⟩ := matchImageAt_spec h1
    exact ⟨m, hn.symm, he, hu⟩

theorem tokLink_spec {cs : List Char} {node : ADF} {rest : List Char}
    (h : tokLink cs = some (node, rest)) :
    ∃ txt url : List Char,
      node = .text ⟨txt⟩ [.link ⟨url⟩] ∧
      cs = '[' :: txt ++ ']' :: '(' :: url ++ ')' :: rest ∧ txt ≠ [] ∧ url ≠ [] := by
  rw [tokLink] at h
  match h1 : matchLinkAt cs with
  | none => rw [h1] at h; exact absurd h (by simp)
  | some ((txt, url), rest1) =>
    rw [h1] at h
    obtain ⟨hn, rfl⟩ :
        (ADF.text ⟨txt⟩ [.link ⟨url⟩] = node) ∧ rest1 = rest := by simpa using h
    obtain ⟨he, ht, hu⟩ := matchLinkAt_spec h1
    exact ⟨txt, url, hn.symm, he, ht, hu⟩

/-- The rest after any token is a strictly shorter suffix of the input. -/
theorem tryTok_shrink {cs : List Char} {node : ADF} {rest : List Char}
    (h : tryTok cs = some (node, rest)) : rest <:+ cs ∧ rest.length < cs.length := by
  rcases tryTok_cases h with h | h | h | h | h | h | h | h
  · obtain ⟨_, _, _, hs, hl⟩ := tok_generic_spec (h := h) (by simp) ; exact ⟨hs, hl⟩
  · obtain ⟨_, _, _, hs, hl⟩ := tok_generic_spec (h := h) (by simp) ; exact ⟨hs, hl⟩
  · obtain ⟨_, _, _, hs, hl⟩ := tok_generic_spec (h := h) (by simp) ; exact ⟨hs, hl⟩
  · obtain ⟨_, _, _, hs, hl⟩ := tok_generic_spec (h := h) (by simp) ; exact ⟨hs, hl⟩
  · obtain ⟨_, _, _, hs, hl⟩ := tok_generic_spec (h := h) (by simp) ; exact ⟨hs, hl⟩
  · obtain ⟨_, _, _, hs, hl⟩ := tok_generic_spec (h := h) (by simp) ; exact ⟨hs, hl⟩
  · obtain ⟨m, _, he, _⟩ := tokImage_spec h
    constructor
    · exact ⟨'!' :: '[' :: m.alt ++ ']' :: '(' :: m.url ++ [')'], by rw [he]; simp⟩
    · rw [he]; simp; omega
  · obtain ⟨txt, url, _, he, _, _⟩ := tokLink_spec h
    constructor
    · exact ⟨'[' :: txt ++ ']' :: '(' :: url ++ [')'], by rw [he]; simp⟩
    · rw [he]; simp; omega

/-- No token node references a url `u` that is non-empty, has no space, is
not a fragment of the image label text, and does not occur in the enclosing
inline text `t`. -/
theorem tryTok_clean {u : List Char} (hu : u ≠ []) (hsp : ' ' ∉ u)
    (hlbl : ¬ u <:+: imgLabelFull) {cs : List Char} {node : ADF}
    {rest : List Char} (h : tryTok cs = some (node, rest)) {t : List Char}
    (hct : cs <:+: t) (hut : ¬ u <:+: t) : adfRefs ⟨u⟩ node = false := by
  have noOcc : ∀ {content : List Char}, content <:+: cs → occursIn u content = false := by
    intro content hc
    rw [occursIn, decide_eq_false_iff_not]
    intro hoc
    exact hut ((hoc.trans hc).trans hct)
  rcases tryTok_cases h with h | h | h | h | h | h | h | h
  · obtain ⟨content, rfl, hin, _, _⟩ := tok_generic_spec (h := h) (by simp)
    simp [adfRefs, markHitsUrl, noOcc hin]
  · obtain ⟨content, rfl, hin, _, _⟩ := tok_generic_spec (h := h) (by simp)
    simp [adfRefs, markHitsUrl, noOcc hin]
  · obtain ⟨content, rfl, hin, _, _⟩ := tok_generic_spec (h := h) (by simp)
    simp [adfRefs, markHitsUrl, noOcc hin]
  · obtain ⟨content, rfl, hin, _, _⟩ := tok_generic_spec (h := h) (by simp)
    simp [adfRefs, markHitsUrl, noOcc hin]
  · obtain ⟨content, rfl, hin, _, _⟩ := tok_generic_spec (h := h) (by simp)
    simp [adfRefs, markHitsUrl, noOcc hin]
  · obtain ⟨content, rfl, hin, _, _⟩ := tok_generic_spec (h := h) (by simp)
    simp [adfRefs, markHitsUrl, noOcc hin]
  · -- image: the label text and the url mark
    obtain ⟨m, rfl, he, hurl⟩ := tokImage_spec h
    have hurlin : m.url <:+: cs := by
      rw [he]
      exact ⟨'!' :: '[' :: m.alt ++ [']', '('], ')' :: rest, by simp⟩
    have hmark : ¬ (String.mk m.url = String.mk u) := by
      intro hh
      have h5 : m.url = u := congrArg String.data hh
      subst h5
      exact hut (hurlin.trans hct)
    have htext : occursIn u (imgLabelOpen ++
        ((if m.alt = [] then ['i', 'm', 'a', 'g', 'e'] else m.alt) ++ [']'])) = false := by
      rw [occursIn, decide_eq_false_iff_not]
      by_cases halt : m.alt = []
      · simp only [halt, if_true]
        intro hoc
        exact hlbl (by simpa [imgLabelFull] using hoc)
      · simp only [halt, if_false]
        intro hoc
        rcases infix_append_cases hoc with h1 | h1 | ⟨u1, u2, hu12, h2, _, h4, _⟩
        · exact hlbl (h1.trans ⟨[], ['i', 'm', 'a', 'g', 'e', ']'], by simp [imgLabelFull]⟩)
        · have haltin : m.alt ++ [']'] <:+: cs := by
            rw [he]
            exact ⟨['!', '['], '(' :: m.url ++ ')' :: rest, by simp⟩
          exact hut ((h1.trans haltin).trans hct)
        · refine hsp (hu12 ▸ List.mem_append_left u2
            (mem_of_suffix_concat (l := ['[', 'i', 'm', 'a', 'g', 'e', ':']) ?_ h2))
          simpa [imgLabelOpen] using h4
    simp [adfRefs, markHitsUrl, htext, hmark]
  · -- plain link: text and url are both infixes
    obtain ⟨txt, url, rfl, he, _, _⟩ := tokLink_spec h
    have htxtin : txt <:+: cs := by
      rw [he]; exact ⟨['['], ']' :: '(' :: url ++ ')' :: rest, by simp⟩
    have hurlin : url <:+: cs := by
      rw [he]; exact ⟨'[' :: txt ++ [']', '('], ')' :: rest, by simp⟩
    have hmark : ¬ (String.mk url = String.mk u) := by
      intro hh
      have h5 : url = u := congrArg String.data hh
      subst h5
      exact hut (hurlin.trans hct)
    simp [adfRefs, markHitsUrl, noOcc htxtin, hmark]

/-- The inline scanner never emits a node referencing `u` when `u` does not
occur in the scanned text (and is not a space-free fragment of the image
label). -/
theorem inlineGo_clean {u : List Char} (hu : u ≠ []) (hsp : ' ' ∉ u)
    (hlbl : ¬ u <:+: imgLabelFull) {t : List Char} (hut : ¬ u <:+: t) :
    ∀ fuel cs acc, (acc.reverse ++ cs) <:+: t →
      ∀ r, inlineGo fuel cs acc = some r → ∀ node ∈ r, adfRefs ⟨u⟩ node = false := by
  intro fuel
  induction fuel with
  | zero => intro cs acc _ r h; exact absurd h (by simp [inlineGo])
  | succ fuel ih =>
    intro cs acc hinv r h
    match cs with
    | [] =>
      rw [inlineGo] at h
      obtain rfl : flushGap acc = r := by simpa using h
      intro node hn
      rw [flushGap] at hn
      split at hn
      · simp at hn
      · obtain rfl : node = ADF.text ⟨acc.reverse⟩ [] := by simpa using hn
        have hacc : acc.reverse <:+: t := by simpa using hinv
        have : occursIn u acc.reverse = false := by
          rw [occursIn, decide_eq_false_iff_not]
          intro hoc
          exact hut (hoc.trans hacc)
        simp [adfRefs, this]
    | c :: cs2 =>
      rw [inlineGo] at h
      split at h
      next node0 rest htok =>
        obtain ⟨ns, hrec, rfl⟩ := Option.map_eq_some'.mp h
        have hcst : (c :: cs2) <:+: t :=
          ((List.suffix_append acc.reverse (c :: cs2)).isInfix).trans hinv
        intro node hn
        rcases List.mem_append.mp hn with hn | hn
        · -- a flushed gap node
          rw [flushGap] at hn
          split at hn
          · simp at hn
          · obtain rfl : node = ADF.text ⟨acc.reverse⟩ [] := by simpa using hn
            have hacc : acc.reverse <:+: t :=
              ((List.prefix_append acc.reverse (c :: cs2)).isInfix).trans hinv
            have : occursIn u acc.reverse = false := by
              rw [occursIn, decide_eq_false_iff_not]
              intro hoc
              exact hut (hoc.trans hacc)
            simp [adfRefs, this]
        · rcases List.mem_cons.mp hn with rfl | hn
          · exact tryTok_clean hu hsp hlbl htok hcst hut
          · have hrest : ([] : List Char).reverse ++ rest <:+: t := by
              simpa using ((tryTok_shrink htok).1.isInfix).trans hcst
            exact ih rest [] hrest ns hrec node hn
      next htok =>
        have hinv2 : ((c :: acc).reverse ++ cs2) <:+: t := by simpa using hinv
        exact ih cs2 (c :: acc) hinv2 r h

/-- The fuel `length + 1` never runs out in the inline scanner. -/
theorem inlineGo_isSome :
    ∀ fuel cs acc, (cs : List Char).length < fuel →
      (inlineGo fuel cs (acc : List Char)).isSome := by
  intro fuel
  induction fuel with
  | zero => intro cs acc h; omega
  | succ fuel ih =>
    intro cs acc h
    match cs with
    | [] => simp [inlineGo]
    | c :: cs2 =>
      rw [inlineGo]
      split
      next node0 rest htok =>
        have hsh := (tryTok_shrink htok).2
        have h2 := ih rest [] (by simp only [List.length_cons] at h hsh ⊢; omega)
        match hrec : inlineGo fuel rest [] with
        | none => rw [hrec] at h2; simp at h2
        | some ns => simp
      next htok =>
        exact ih cs2 (c :: acc) (by simp at h ⊢; omega)

theorem inline_marks_isSome (t : List Char) : (inline_marks t).isSome := by
  rw [inline_marks]
  have := inlineGo_isSome (t.length + 1) t [] (by omega)
  match h : inlineGo (t.length + 1) t [] with
  | none => rw [h] at this; simp at this
  | some ns => simp

/-- The nodes `_inline_marks` emits reference no absent url. -/
theorem inline_marks_clean {u : List Char} (hu : u ≠ []) (hsp : ' ' ∉ u)
    (hlbl : ¬ u <:+: imgLabelFull) {t : List Char} (hut : ¬ u <:+: t)
    {r : List ADF} (h : inline_marks t = some r) :
    ∀ node ∈ r, adfRefs ⟨u⟩ node = false := by
  rw [inline_marks] at h
  match hgo : inlineGo (t.length + 1) t [] with
  | none => rw [hgo] at h; exact absurd h (by simp)
  | some ns =>
    rw [hgo] at h
    obtain rfl : (if ns.isEmpty then [ADF.text ⟨t⟩ []] else ns) = r := by simpa using h
    split
    · intro node hn
      obtain rfl : node = ADF.text ⟨t⟩ [] := by simpa using hn
      have : occursIn u t = false := by
        rw [occursIn, decide_eq_false_iff_not]; exact hut
      simp [adfRefs, this]
    · exact inlineGo_clean hu hsp hlbl hut (t.length + 1) t [] (by simp) ns hgo

-- ───────────────────────────────────────────────────────────────────────────
--  Line-splitting, stripping and measure lemmas for the block parser
-- ───────────────────────────────────────────────────────────────────────────

theorem splitNl_struct : ∀ s : List Char, ∃ l ls, splitNl s = l :: ls ∧
    l <+: s ∧ ∀ x ∈ ls, x <:+: s
  | [] => ⟨[], [], by simp [splitNl], List.nil_prefix, by simp⟩
  | c :: cs => by
    obtain ⟨l, ls, hs, hp, hm⟩ := splitNl_struct cs
    by_cases hc : c = '\n'
    · refine ⟨[], splitNl cs, by rw [splitNl]; simp [hc], List.nil_prefix, ?_⟩
      intro x hx
      rw [hs] at hx
      rcases List.mem_cons.mp hx with rfl | hx
      · exact List.infix_cons hp.isInfix
      · exact List.infix_cons (hm x hx)
    · refine ⟨c :: l, ls, by rw [splitNl, hs]; simp [hc], ?_, ?_⟩
      · exact List.cons_prefix_cons.mpr ⟨rfl, hp⟩
      · exact fun x hx => List.infix_cons (hm x hx)

theorem splitNl_mem_isInfix {s l : List Char} (h : l ∈ splitNl s) : l <:+: s := by
  obtain ⟨l0, ls, hs, hp, hm⟩ := splitNl_struct s
  rw [hs] at h
  rcases List.mem_cons.mp h with rfl | h
  · exact hp.isInfix
  · exact hm l h

theorem splitLinesPy_mem_isInfix {s l : List Char} (h : l ∈ splitLinesPy s) :
    l <:+: s := by
  rw [splitLinesPy] at h
  split at h
  · simp at h
  · split at h
    · exact splitNl_mem_isInfix (List.dropLast_subset _ h)
    · exact splitNl_mem_isInfix h

theorem stripL_suffix (cs : List Char) : stripL cs <:+ cs := List.dropWhile_suffix pyWS

theorem stripR_isPrefix (cs : List Char) : stripR cs <+: cs := by
  rw [stripR]
  have := List.dropWhile_suffix (l := cs.reverse) pyWS
  rw [← List.reverse_prefix] at this
  simpa using this

theorem pyStrip_isInfix (cs : List Char) : pyStrip cs <:+: cs :=
  ((stripR_isPrefix (stripL cs)).isInfix).trans (stripL_suffix cs).isInfix

theorem totalLen_suffix_le : ∀ {l1 l2 : List (List Char)}, l2 <:+ l1 →
    totalLen l2 ≤ totalLen l1 := by
  intro l1
  induction l1 with
  | nil => intro l2 h; rw [List.suffix_nil.mp h]
  | cons x xs ih =>
    intro l2 h
    rcases List.suffix_cons_iff.mp h with rfl | h
    · exact le_refl _
    · calc totalLen l2 ≤ totalLen xs := ih h
        _ ≤ totalLen (x :: xs) := by rw [totalLen]; omega

theorem takeCode_spec (fc : Char) (fl : Nat) :
    ∀ ls : List (List Char), (∀ l ∈ (takeCode fc fl ls).1, l ∈ ls) ∧
      (takeCode fc fl ls).2 <:+ ls
  | [] => by simp [takeCode]
  | l :: ls => by
    obtain ⟨hm, hs⟩ := takeCode_spec fc fl ls
    rw [takeCode]
    split
    · exact ⟨by simp, List.suffix_cons l ls⟩
    · refine ⟨?_, hs.trans (List.suffix_cons l ls)⟩
      intro x hx
      rcases List.mem_cons.mp hx with rfl | hx
      · simp
      · simp [hm x hx]

theorem takeWhile_mem {p : List Char → Bool} {ls : List (List Char)} {l : List Char}
    (h : l ∈ ls.takeWhile p) : l ∈ ls :=
  ((List.takeWhile_prefix p).sublist).mem h

theorem dropWhile_suffix_lines (p : List Char → Bool) (ls : List (List Char)) :
    ls.dropWhile p <:+ ls := List.dropWhile_suffix p

/-- `re.sub` of the bullet marker yields a suffix of the line. -/
theorem bulletText_suffix (l : List Char) : bulletText l <:+ l := by
  rw [bulletText, bulletBody]
  split
  next c rest heq =>
    split
    · simp only [Option.getD_some]
      have h1 : c :: ' ' :: rest <:+ l := heq ▸ List.dropWhile_suffix pyWS
      exact (List.suffix_cons ' ' rest).trans ((List.suffix_cons c _).trans h1)
    · simp
  next => simp

theorem orderedText_suffix (l : List Char) : orderedText l <:+ l := by
  rw [orderedText, orderedBody]
  split
  next => simp
  next hds =>
    split
    next rest heq =>
      dsimp only
      split
      next => simp
      next hws =>
        simp only [Option.getD_some]
        have h1 : (l.dropWhile pyWS).drop ((l.dropWhile pyWS).takeWhile Char.isDigit).length
            <:+ l.dropWhile pyWS := List.drop_suffix _ _
        rw [heq] at h1
        have h2 : rest.drop (rest.takeWhile pyWS).length <:+ rest := List.drop_suffix _ _
        exact h2.trans (((List.suffix_cons '.' rest).trans h1).trans
          (List.dropWhile_suffix pyWS))
    next => simp

theorem stripQuote_isInfix (l : List Char) : stripQuote l <:+: l := by
  rw [stripQuote]
  split
  · exact (List.drop_suffix 2 l).isInfix
  · exact ⟨[], l, by simp⟩

theorem stripQuote_len {l : List Char} (h : isQuoteLine l) :
    (stripQuote l).length + 1 ≤ l.length := by
  rw [isQuoteLine] at h
  rw [stripQuote]
  rcases Bool.or_eq_true_iff.mp h with h1 | h1
  · obtain ⟨t, ht⟩ := List.isPrefixOf_iff_prefix.mp h1
    simp only [h1, if_true]
    rw [← ht]
    simp
  · have : l = ['>'] := by simpa using h1
    subst this
    simp [stripQuote]

theorem totalLen_map_stripQuote {q : List (List Char)}
    (h : ∀ l ∈ q, isQuoteLine l) :
    totalLen (q.map stripQuote) + q.length ≤ totalLen q := by
  induction q with
  | nil => simp [totalLen]
  | cons l ls ih =>
    have h1 := stripQuote_len (h l (by simp))
    have h2 := ih fun x hx => h x (by simp [hx])
    simp only [List.map_cons, totalLen, List.length_cons]
    omega

theorem totalLen_splitNl : ∀ s : List Char, totalLen (splitNl s) = s.length + 1
  | [] => by simp [splitNl, totalLen]
  | c :: cs => by
    have ih := totalLen_splitNl cs
    rw [splitNl]
    by_cases hc : c = '\n'
    · simp only [hc, if_true, totalLen]
      simp [ih]
      omega
    · simp only [hc, if_false]
      match h : splitNl cs with
      | l :: ls =>
        rw [h] at ih
        simp only [totalLen] at ih ⊢
        simp
        omega
      | [] =>
        obtain ⟨l0, ls0, hs, _, _⟩ := splitNl_struct cs
        rw [h] at hs
        exact absurd hs (by simp)

theorem totalLen_dropLast_le : ∀ ls : List (List Char),
    totalLen ls.dropLast ≤ totalLen ls
  | [] => by simp
  | [l] => by simp [totalLen]
  | l :: x :: xs => by
    have := totalLen_dropLast_le (x :: xs)
    simp only [List.dropLast_cons₂, totalLen] at this ⊢
    omega

theorem totalLen_splitLinesPy_le (s : List Char) :
    totalLen (splitLinesPy s) ≤ s.length + 1 := by
  rw [splitLinesPy]
  split
  · simp [totalLen]
  · split
    · exact (totalLen_dropLast_le _).trans (totalLen_splitNl s).le
    · exact (totalLen_splitNl s).le

theorem adfRefsList_eq_any (v : String) : ∀ c : List ADF,
    adfRefsList v c = c.any (adfRefs v)
  | [] => by simp [adfRefsList]
  | x :: xs => by
    rw [adfRefsList, adfRefsList_eq_any v xs]; simp

theorem adfRefs_paragraph (v : String) (c : List ADF) :
    adfRefs v (.paragraph c) = c.any (adfRefs v) := by
  rw [adfRefs]; exact adfRefsList_eq_any v c

theorem adfRefs_heading (v : String) (n : Nat) (c : List ADF) :
    adfRefs v (.heading n c) = c.any (adfRefs v) := by
  rw [adfRefs]; exact adfRefsList_eq_any v c

theorem adfRefs_blockquote (v : String) (c : List ADF) :
    adfRefs v (.blockquote c) = c.any (adfRefs v) := by
  rw [adfRefs]; exact adfRefsList_eq_any v c

theorem adfRefs_bulletList (v : String) (c : List ADF) :
    adfRefs v (.bulletList c) = c.any (adfRefs v) := by
  rw [adfRefs]; exact adfRefsList_eq_any v c

theorem adfRefs_orderedList (v : String) (c : List ADF) :
    adfRefs v (.orderedList c) = c.any (adfRefs v) := by
  rw [adfRefs]; exact adfRefsList_eq_any v c

theorem adfRefs_listItem (v : String) (c : List ADF) :
    adfRefs v (.listItem c) = c.any (adfRefs v) := by
  rw [adfRefs]; exact adfRefsList_eq_any v c

theorem mapM_isSome {α β : Type} {f : α → Option β} :
    ∀ {q : List α}, (∀ a ∈ q, (f a).isSome) → (q.mapM f).isSome
  | [], _ => by rw [show ([] : List α).mapM f = some [] from rfl]; simp
  | a :: q, h => by
    rw [List.mapM_cons]
    match hfa : f a with
    | none =>
      have := h a (by simp)
      rw [hfa] at this
      simp at this
    | some b =>
      have h2 := mapM_isSome (f := f) (q := q) fun x hx => h x (by simp [hx])
      match hq : q.mapM f with
      | none => rw [hq] at h2; simp at h2
      | some bs => simp [hfa, hq]

theorem mapM_mem {α β : Type} {f : α → Option β} :
    ∀ {q : List α} {items : List β}, q.mapM f = some items →
      ∀ b ∈ items, ∃ a ∈ q, f a = some b
  | [], items, h => by
    rw [show ([] : List α).mapM f = some [] from rfl] at h
    obtain rfl : ([] : List β) = items := by simpa using h
    simp
  | a :: q, items, h => by
    rw [List.mapM_cons] at h
    match hfa : f a with
    | none => rw [hfa] at h; exact absurd h (by simp)
    | some b0 =>
      rw [hfa] at h
      match hq : q.mapM f with
      | none => rw [hq] at h; exact absurd h (by simp)
      | some bs =>
        rw [hq] at h
        obtain rfl : b0 :: bs = items := by simpa using h
        intro b hb
        rcases List.mem_cons.mp hb with rfl | hb
        · exact ⟨a, by simp, hfa⟩
        · obtain ⟨a1, ha1, hfa1⟩ := mapM_mem hq b hb
          exact ⟨a1, by simp [ha1], hfa1⟩

theorem totalLen_sublist_le {l1 l2 : List (List Char)} (h : List.Sublist l2 l1) :
    totalLen l2 ≤ totalLen l1 := by
  induction h with
  | slnil => exact le_refl _
  | cons x _ ih => rw [totalLen]; omega
  | cons₂ x _ ih => rw [totalLen, totalLen]; omega

theorem joinSep_length : ∀ {sep : Char} {parts : List (List Char)},
    parts ≠ [] → (joinSep sep parts).length + 1 = totalLen parts := by
  intro sep parts
  induction parts with
  | nil => intro h; exact absurd rfl h
  | cons l ls ih =>
    intro _
    cases ls with
    | nil => simp [joinSep, totalLen]
    | cons x xs =>
      have h2 := ih (by simp)
      have hj : joinSep sep (l :: x :: xs) = l ++ sep :: joinSep sep (x :: xs) := rfl
      rw [hj]
      simp only [totalLen] at h2 ⊢
      simp
      omega

/-- The measure bound for the blockquote recursion: the inner line list is
strictly smaller than the quoted block it came from. -/
theorem quote_measure {line : List Char} {rest : List (List Char)}
    (hq : isQuoteLine line) :
    totalLen (splitLinesPy (joinSep '\n'
        (((line :: rest).takeWhile isQuoteLine).map stripQuote))) <
      totalLen (line :: rest) := by
  set q := (line :: rest).takeWhile isQuoteLine with hqdef
  have hqne : q ≠ [] := by
    rw [hqdef, List.takeWhile_cons_of_pos hq]
    simp
  have hmapne : q.map stripQuote ≠ [] := by simpa using hqne
  have h1 := totalLen_splitLinesPy_le (joinSep '\n' (q.map stripQuote))
  have h2 := @joinSep_length '\n' (q.map stripQuote) hmapne
  have h3 : totalLen (q.map stripQuote) + q.length ≤ totalLen q :=
    totalLen_map_stripQuote fun l hl => List.mem_takeWhile_imp (hqdef ▸ hl)
  have h4 : totalLen q ≤ totalLen (line :: rest) :=
    totalLen_sublist_le (hqdef ▸ (List.takeWhile_sublist _))
  have h5 : 1 ≤ q.length := List.length_pos.mpr hqne
  omega

/-- Fuel `totalLen lines + 1` never runs out in the block parser: every
iteration consumes at least one line (and the blockquote recursion strictly
shrinks the measure). -/
theorem mdBlocks_isSome : ∀ fuel lines, totalLen lines < fuel →
    (mdBlocks fuel lines).isSome := by
  intro fuel
  induction fuel with
  | zero => intro lines h; omega
  | succ fuel ih =>
    intro lines h
    match lines with
    | [] => simp [mdBlocks]
    | line :: rest =>
      have hrest : totalLen rest < fuel := by rw [totalLen] at h; omega
      rw [mdBlocks]
      split
      next fc fl afterFence hf =>
        have h2 := takeCode_spec fc fl rest
        have h3 : totalLen (takeCode fc fl rest).2 < fuel :=
          lt_of_le_of_lt (totalLen_suffix_le h2.2) hrest
        simpa using ih _ h3
      next hf =>
        split
        next n hh =>
          have hi := inline_marks_isSome (pyStrip (line.drop n))
          match hmk : inline_marks (pyStrip (line.drop n)) with
          | none => rw [hmk] at hi; simp at hi
          | some inl => simpa using ih rest hrest
        next hh =>
          cases hrule : isRuleLine line with
          | true => simp only [hrule, if_true]; simpa using ih rest hrest
          | false =>
          simp only [hrule, if_false, Bool.false_eq_true]
          cases hq : isQuoteLine line with
          | true =>
            simp only [hq, if_true]
            have hqm := @quote_measure line rest hq
            have hinner := ih _ (lt_of_lt_of_le hqm (by omega))
            have hr1 : totalLen ((line :: rest).dropWhile isQuoteLine) < fuel := by
              rw [List.dropWhile_cons_of_pos hq]
              exact lt_of_le_of_lt (totalLen_suffix_le (List.dropWhile_suffix _)) hrest
            have hrec := ih _ hr1
            match hm1 : mdBlocks fuel (splitLinesPy (joinSep '\n'
                (((line :: rest).takeWhile isQuoteLine).map stripQuote))) with
            | none => rw [hm1] at hinner; simp at hinner
            | some innerC => simpa using hrec
          | false =>
          simp only [hq, if_false, Bool.false_eq_true]
          cases hb : (bulletBody line).isSome with
          | true =>
            simp only [hb, if_true]
            have hitems : ((((line :: rest).takeWhile fun l => (bulletBody l).isSome).mapM
                fun l => (inline_marks (bulletText l)).map fun inl =>
                  ADF.listItem [ADF.paragraph inl])).isSome := by
              apply mapM_isSome
              intro a _
              have := inline_marks_isSome (bulletText a)
              match hmk : inline_marks (bulletText a) with
              | none => rw [hmk] at this; simp at this
              | some inl => simp
            have hr1 : totalLen ((line :: rest).dropWhile
                fun l => (bulletBody l).isSome) < fuel := by
              rw [List.dropWhile_cons_of_pos (p := fun l => (bulletBody l).isSome)
                (by simpa using hb)]
              exact lt_of_le_of_lt (totalLen_suffix_le (List.dropWhile_suffix _)) hrest
            have hrec := ih _ hr1
            match hm1 : (((line :: rest).takeWhile fun l => (bulletBody l).isSome).mapM
                fun l => (inline_marks (bulletText l)).map fun inl =>
                  ADF.listItem [ADF.paragraph inl]) with
            | none => rw [hm1] at hitems; simp at hitems
            | some items => simpa using hrec
          | false =>
          simp only [hb, if_false, Bool.false_eq_true]
          cases ho : (orderedBody line).isSome with
          | true =>
            simp only [ho, if_true]
            have hitems : ((((line :: rest).takeWhile fun l => (orderedBody l).isSome).mapM
                fun l => (inline_marks (orderedText l)).map fun inl =>
                  ADF.listItem [ADF.paragraph inl])).isSome := by
              apply mapM_isSome
              intro a _
              have := inline_marks_isSome (orderedText a)
              match hmk : inline_marks (orderedText a) with
              | none => rw [hmk] at this; simp at this
              | some inl => simp
            have hr1 : totalLen ((line :: rest).dropWhile
                fun l => (orderedBody l).isSome) < fuel := by
              rw [List.dropWhile_cons_of_pos (p := fun l => (orderedBody l).isSome)
                (by simpa using ho)]
              exact lt_of_le_of_lt (totalLen_suffix_le (List.dropWhile_suffix _)) hrest
            have hrec := ih _ hr1
            match hm1 : (((line :: rest).takeWhile fun l => (orderedBody l).isSome).mapM
                fun l => (inline_marks (orderedText l)).map fun inl =>
                  ADF.listItem [ADF.paragraph inl]) with
            | none => rw [hm1] at hitems; simp at hitems
            | some items => simpa using hrec
          | false =>
          simp only [ho, if_false, Bool.false_eq_true]
          cases hblank : (pyStrip line).isEmpty with
          | true => simp only [hblank, if_true]; exact ih rest hrest
          | false =>
          simp only [hblank, if_false, Bool.false_eq_true]
          have hpara : paraLine line = true := by
            rw [paraLine, hf, hh]
            simp only [hblank, hrule]
            rw [isQuoteLine] at hq
            rcases Bool.or_eq_false_iff.mp hq with ⟨hq1, _⟩
            have hb2 : bulletBody line = none :=
              Option.not_isSome_iff_eq_none.mp (by simp [hb])
            have ho2 : orderedBody line = none :=
              Option.not_isSome_iff_eq_none.mp (by simp [ho])
            simp [hq1, hb2, ho2]
          have hi := inline_marks_isSome
            (joinSep ' ' ((line :: rest).takeWhile paraLine))
          have hr1 : totalLen ((line :: rest).dropWhile paraLine) < fuel := by
            rw [List.dropWhile_cons_of_pos hpara]
            exact lt_of_le_of_lt (totalLen_suffix_le (List.dropWhile_suffix _)) hrest
          have hrec := ih _ hr1
          match hmk : inline_marks (joinSep ' ' ((line :: rest).takeWhile paraLine)) with
          | none => rw [hmk] at hi; simp at hi
          | some inl => simpa using hrec

theorem mem_of_suffix_mem {a : List Char} {l1 l2 : List (List Char)}
    (hs : l2 <:+ l1) (ha : a ∈ l2) : a ∈ l1 := hs.sublist.mem ha

theorem any_adfRefs_false {c : List ADF} {v : String}
    (h : ∀ a ∈ c, adfRefs v a = false) : c.any (adfRefs v) = false := by
  rw [List.any_eq_false]
  intro a ha
  simp [h a ha]

/-- The block parser never produces a node referencing `u` when `u` is
non-empty, has neither space nor newline, is not a fragment of the image
label, and occurs in no input line. -/
theorem mdBlocks_clean {u : List Char} (hu : u ≠ []) (hsp : ' ' ∉ u)
    (hnl : '\n' ∉ u) (hlbl : ¬ u <:+: imgLabelFull) :
    ∀ fuel lines, (∀ l ∈ lines, ¬ u <:+: l) →
      ∀ r, mdBlocks fuel lines = some r → ∀ node ∈ r, adfRefs ⟨u⟩ node = false := by
  intro fuel
  induction fuel with
  | zero => intro lines _ r h; exact absurd h (by simp [mdBlocks])
  | succ fuel ih =>
    intro lines hlines r h
    match lines with
    | [] =>
      rw [mdBlocks] at h
      obtain rfl : r = [] := by simpa using h.symm
      simp
    | line :: rest =>
      have hrestl : ∀ l ∈ rest, ¬ u <:+: l := fun l hl => hlines l (by simp [hl])
      have hline : ¬ u <:+: line := hlines line (by simp)
      rw [mdBlocks] at h
      split at h
      next fc fl afterFence hf =>
        obtain ⟨ns, hns, rfl⟩ := Option.map_eq_some'.mp h
        have hrec := ih (takeCode fc fl rest).2
          (fun l hl => hrestl l (mem_of_suffix_mem (takeCode_spec fc fl rest).2 hl))
          ns hns
        intro node hn
        rcases List.mem_cons.mp hn with rfl | hn
        · have hcode : ∀ l ∈ (takeCode fc fl rest).1, ¬ u <:+: l := fun l hl =>
            hrestl l ((takeCode_spec fc fl rest).1 l hl)
          have hocc : ¬ u <:+: joinSep '\n' (takeCode fc fl rest).1 :=
            joinSep_no_occurrence '\n' u hu hnl _ hcode
          simp [adfRefs, occursIn, hocc]
        · exact hrec node hn
      next hf =>
        split at h
        next n hh =>
          split at h
          next inl hmk =>
            obtain ⟨ns, hns, rfl⟩ := Option.map_eq_some'.mp h
            have hrec := ih rest hrestl ns hns
            intro node hn
            rcases List.mem_cons.mp hn with rfl | hn
            · have ht : ¬ u <:+: pyStrip (line.drop n) := fun hoc =>
                hline (hoc.trans ((pyStrip_isInfix _).trans
                  (List.drop_suffix n line).isInfix))
              rw [adfRefs_heading]
              exact any_adfRefs_false (inline_marks_clean hu hsp hlbl ht hmk)
            · exact hrec node hn
          next => exact absurd h (by simp)
        next hh =>
          split at h
          · -- rule
            obtain ⟨ns, hns, rfl⟩ := Option.map_eq_some'.mp h
            have hrec := ih rest hrestl ns hns
            intro node hn
            rcases List.mem_cons.mp hn with rfl | hn
            · simp [adfRefs]
            · exact hrec node hn
          split at h
          next hq =>
            -- blockquote
            dsimp only at h
            split at h
            next innerC hinner =>
              obtain ⟨ns, hns, rfl⟩ := Option.map_eq_some'.mp h
              have hrec := ih ((line :: rest).dropWhile isQuoteLine)
                (fun l hl => hlines l
                  (mem_of_suffix_mem (dropWhile_suffix_lines isQuoteLine _) hl))
                ns hns
              intro node hn
              rcases List.mem_cons.mp hn with rfl | hn
              · have hqparts : ∀ p ∈ ((line :: rest).takeWhile isQuoteLine).map stripQuote,
                    ¬ u <:+: p := by
                  intro p hp
                  obtain ⟨l, hl, rfl⟩ := List.mem_map.mp hp
                  exact fun hoc => hlines l (takeWhile_mem hl)
                    (hoc.trans (stripQuote_isInfix l))
                have hinn : ¬ u <:+: joinSep '\n'
                    (((line :: rest).takeWhile isQuoteLine).map stripQuote) :=
                  joinSep_no_occurrence '\n' u hu hnl _ hqparts
                have hinnlines : ∀ l ∈ splitLinesPy (joinSep '\n'
                    (((line :: rest).takeWhile isQuoteLine).map stripQuote)),
                    ¬ u <:+: l := fun l hl hoc =>
                  hinn (hoc.trans (splitLinesPy_mem_isInfix hl))
                have hcln := ih _ hinnlines innerC hinner
                rw [adfRefs_blockquote]
                exact any_adfRefs_false hcln
              · exact hrec node hn
            next => exact absurd h (by simp)
          next hq =>
            split at h
            next hb =>
              -- bullet list
              dsimp only at h
              split at h
              next items hitems =>
                obtain ⟨ns, hns, rfl⟩ := Option.map_eq_some'.mp h
                have hrec := ih ((line :: rest).dropWhile fun l => (bulletBody l).isSome)
                  (fun l hl => hlines l
                    (mem_of_suffix_mem (dropWhile_suffix_lines _ _) hl))
                  ns hns
                intro node hn
                rcases List.mem_cons.mp hn with rfl | hn
                · rw [adfRefs_bulletList]
                  apply any_adfRefs_false
                  intro item hitem
                  obtain ⟨l, hl, hfl⟩ := mapM_mem hitems item hitem
                  obtain ⟨inl, hmk, rfl⟩ := Option.map_eq_some'.mp hfl
                  have ht : ¬ u <:+: bulletText l := fun hoc =>
                    hlines l (takeWhile_mem hl)
                      (hoc.trans (bulletText_suffix l).isInfix)
                  rw [adfRefs_listItem]
                  apply any_adfRefs_false
                  intro a ha
                  obtain rfl : a = ADF.paragraph inl := by simpa using ha
                  rw [adfRefs_paragraph]
                  exact any_adfRefs_false (inline_marks_clean hu hsp hlbl ht hmk)
                · exact hrec node hn
              next => exact absurd h (by simp)
            next hb =>
              split at h
              next ho =>
                -- ordered list
                dsimp only at h
                split at h
                next items hitems =>
                  obtain ⟨ns, hns, rfl⟩ := Option.map_eq_some'.mp h
                  have hrec := ih ((line :: rest).dropWhile fun l => (orderedBody l).isSome)
                    (fun l hl => hlines l
                      (mem_of_suffix_mem (dropWhile_suffix_lines _ _) hl))
                    ns hns
                  intro node hn
                  rcases List.mem_cons.mp hn with rfl | hn
                  · rw [adfRefs_orderedList]
                    apply any_adfRefs_false
                    intro item hitem
                    obtain ⟨l, hl, hfl⟩ := mapM_mem hitems item hitem
                    obtain ⟨inl, hmk, rfl⟩ := Option.map_eq_some'.mp hfl
                    have ht : ¬ u <:+: orderedText l := fun hoc =>
                      hlines l (takeWhile_mem hl)
                        (hoc.trans (orderedText_suffix l).isInfix)
                    rw [adfRefs_listItem]
                    apply any_adfRefs_false
                    intro a ha
                    obtain rfl : a = ADF.paragraph inl := by simpa using ha
                    rw [adfRefs_paragraph]
                    exact any_adfRefs_false (inline_marks_clean hu hsp hlbl ht hmk)
                  · exact hrec node hn
                next => exact absurd h (by simp)
              next ho =>
                split at h
                · -- blank line
                  exact ih rest hrestl r h
                · -- paragraph
                  dsimp only at h
                  split at h
                  next inl hmk =>
                    obtain ⟨ns, hns, rfl⟩ := Option.map_eq_some'.mp h
                    have hrec := ih ((line :: rest).dropWhile paraLine)
                      (fun l hl => hlines l
                        (mem_of_suffix_mem (dropWhile_suffix_lines paraLine _) hl))
                      ns hns
                    intro node hn
                    split at hn
                    · exact hrec node hn
                    · rcases List.mem_cons.mp hn with rfl | hn
                      · have hparts : ∀ p ∈ (line :: rest).takeWhile paraLine,
                            ¬ u <:+: p := fun p hp =>
                          hlines p (takeWhile_mem hp)
                        have ht : ¬ u <:+: joinSep ' '
                            ((line :: rest).takeWhile paraLine) :=
                          joinSep_no_occurrence ' ' u hu hsp _ hparts
                        rw [adfRefs_paragraph]
                        exact any_adfRefs_false (inline_marks_clean hu hsp hlbl ht hmk)
                      · exact hrec node hn
                  next => exact absurd h (by simp)

-- ───────────────────────────────────────────────────────────────────────────
--  Image splitting and the anti-leakage assembly
-- ───────────────────────────────────────────────────────────────────────────

theorem matchImageAt_rest_lt {cs : List Char} {m : ImgMatch} {rest : List Char}
    (h : matchImageAt cs = some (m, rest)) : rest.length < cs.length := by
  obtain ⟨he, _⟩ := matchImageAt_spec h
  rw [he]
  simp
  omega

theorem splitImagesGo_isSome : ∀ fuel cs acc, (cs : List Char).length < fuel →
    (splitImagesGo fuel cs (acc : List Char)).isSome := by
  intro fuel
  induction fuel with
  | zero => intro cs acc h; omega
  | succ fuel ih =>
    intro cs acc h
    match cs with
    | [] => simp [splitImagesGo]
    | c :: cs2 =>
      rw [splitImagesGo]
      split
      next m rest hm =>
        have hlt := matchImageAt_rest_lt hm
        have h2 := ih rest [] (by simp only [List.length_cons] at h hlt ⊢; omega)
        match hrec : splitImagesGo fuel rest [] with
        | none => rw [hrec] at h2; simp at h2
        | some segs => simp
      next hm =>
        exact ih cs2 (c :: acc) (by simp only [List.length_cons] at h ⊢; omega)

theorem findImagesGo_urls : ∀ fuel cs (acc : List ImgMatch),
    (∀ m ∈ acc, m.url ≠ []) → ∀ r, findImagesGo fuel cs acc = some r →
      ∀ m ∈ r, m.url ≠ [] := by
  intro fuel
  induction fuel with
  | zero => intro cs acc _ r h; exact absurd h (by simp [findImagesGo])
  | succ fuel ih =>
    intro cs acc hacc r h
    match cs with
    | [] =>
      rw [findImagesGo] at h
      obtain rfl : r = acc.reverse := by simpa using h.symm
      intro m hm
      exact hacc m (by simpa using hm)
    | c :: cs2 =>
      rw [findImagesGo] at h
      split at h
      next m0 rest hm0 =>
        refine ih rest (m0 :: acc) ?_ r h
        intro m hm
        rcases List.mem_cons.mp hm with rfl | hm
        · exact (matchImageAt_spec hm0).2
        · exact hacc m hm
      next hm0 => exact ih cs2 acc hacc r h

/-- Every url extracted by `extract_image_urls` is non-empty. -/
theorem extract_image_urls_ne {markdown : String} {alt u : String}
    (h : (alt, u) ∈ extract_image_urls markdown) : u.data ≠ [] := by
  rw [extract_image_urls] at h
  obtain ⟨m, hm, he⟩ := List.mem_map.mp h
  obtain ⟨-, rfl⟩ : alt = ⟨m.alt⟩ ∧ u = ⟨m.url⟩ := by
    constructor
    · exact congrArg Prod.fst he.symm
    · exact congrArg Prod.snd he.symm
  match hgo : findImagesGo (markdown.data.length + 1) markdown.data [] with
  | none => rw [hgo] at hm; simp at hm
  | some r =>
    rw [hgo] at hm
    simp only [Option.getD_some] at hm
    exact findImagesGo_urls _ _ [] (by simp) r hgo m hm

/-- Nodes contributed by one segment of the image split are clean. -/
theorem seg_step_clean {u : List Char} (hu : u ≠ []) (hsp : ' ' ∉ u)
    (hnl : '\n' ∉ u) (hlbl : ¬ u <:+: imgLabelFull)
    {media_map : List (String × MediaEntry)}
    (hpay : ∀ p ∈ media_map, ¬ (⟨u⟩ : String) ∈ entryStrings p.2)
    {seg : List Char} (hseg : fullmatchImage seg = none → ¬ u <:+: seg) :
    ∀ node ∈ (if seg.isEmpty then ([] : List ADF)
      else
        match fullmatchImage seg with
        | some m =>
          match lookupEntry media_map ⟨m.url⟩ with
          | some (.file uuid collection) =>
            [ADF.mediaSingle "center" (some 760) (.file uuid collection)]
          | some (.external url) => [ADF.mediaSingle "center" none (.external url)]
          | none => []
        | none => (markdown_to_adf ⟨seg⟩).content),
      adfRefs ⟨u⟩ node = false := by
  split
  · simp
  · intro node hn
    split at hn
    next m hfm =>
      split at hn
      next uuid collection hlk =>
        obtain rfl : node = ADF.mediaSingle "center" (some 760) (.file uuid collection) := by
          simpa using hn
        rw [lookupEntry] at hlk
        obtain ⟨p, hp, he⟩ := Option.map_eq_some'.mp hlk
        have hk : p ∈ media_map := List.mem_of_find?_eq_some hp
        have hp2 := hpay _ hk
        rw [he] at hp2
        simp only [entryStrings] at hp2
        have h1 : ¬ uuid = (⟨u⟩ : String) := fun he2 => hp2 (by simp [he2])
        have h2 : ¬ collection = (⟨u⟩ : String) := fun he2 => hp2 (by simp [he2])
        simp [adfRefs, mediaHitsUrl, h1, h2]
      next url hlk =>
        obtain rfl : node = ADF.mediaSingle "center" none (.external url) := by
          simpa using hn
        rw [lookupEntry] at hlk
        obtain ⟨p, hp, he⟩ := Option.map_eq_some'.mp hlk
        have hk : p ∈ media_map := List.mem_of_find?_eq_some hp
        have hp2 := hpay _ hk
        rw [he] at hp2
        simp only [entryStrings] at hp2
        have h1 : ¬ url = (⟨u⟩ : String) := fun he2 => hp2 (by simp [he2])
        simp [adfRefs, mediaHitsUrl, h1]
      next hlk => simp at hn
    next hfm =>
      have hfree := hseg hfm
      rw [markdown_to_adf] at hn
      split at hn
      · simp at hn
      · dsimp only at hn
        have hlines : ∀ l ∈ splitLinesPy (String.mk seg).data, ¬ u <:+: l :=
          fun l hl hoc => hfree (hoc.trans (splitLinesPy_mem_isInfix hl))
        have hsome := mdBlocks_isSome (totalLen (splitLinesPy (String.mk seg).data) + 1)
          (splitLinesPy (String.mk seg).data) (by omega)
        match hmb : mdBlocks (totalLen (splitLinesPy (String.mk seg).data) + 1)
            (splitLinesPy (String.mk seg).data) with
        | none => rw [hmb] at hsome; simp at hsome
        | some r =>
          rw [hmb] at hn
          exact mdBlocks_clean hu hsp hnl hlbl _ _ hlines r hmb node (by simpa using hn)

theorem buildStep_eq (media_map : List (String × MediaEntry)) (content : List ADF)
    (seg : List Char) :
    (if seg.isEmpty then content
      else
        match fullmatchImage seg with
        | some m =>
          match lookupEntry media_map ⟨m.url⟩ with
          | some (.file uuid collection) =>
            content ++ [ADF.mediaSingle "center" (some 760) (.file uuid collection)]
          | some (.external url) =>
            content ++ [ADF.mediaSingle "center" none (.external url)]
          | none => content
        | none => content ++ (markdown_to_adf ⟨seg⟩).content)
    = content ++ (if seg.isEmpty then ([] : List ADF)
      else
        match fullmatchImage seg with
        | some m =>
          match lookupEntry media_map ⟨m.url⟩ with
          | some (.file uuid collection) =>
            [ADF.mediaSingle "center" (some 760) (.file uuid collection)]
          | some (.external url) => [ADF.mediaSingle "center" none (.external url)]
          | none => []
        | none => (markdown_to_adf ⟨seg⟩).content) := by
  split
  · simp
  · split
    · split <;> simp
    · simp

theorem buildFold_clean {u : List Char} (hu : u ≠ []) (hsp : ' ' ∉ u)
    (hnl : '\n' ∉ u) (hlbl : ¬ u <:+: imgLabelFull)
    {media_map : List (String × MediaEntry)}
    (hpay : ∀ p ∈ media_map, ¬ (⟨u⟩ : String) ∈ entryStrings p.2) :
    ∀ (segs : List (List Char)) (acc : List ADF),
      (∀ node ∈ acc, adfRefs ⟨u⟩ node = false) →
      (∀ seg ∈ segs, fullmatchImage seg = none → ¬ u <:+: seg) →
      ∀ node ∈ segs.foldl
        (fun content seg =>
          if seg.isEmpty then content
          else
            match fullmatchImage seg with
            | some m =>
              match lookupEntry media_map ⟨m.url⟩ with
              | some (.file uuid collection) =>
                content ++ [ADF.mediaSingle "center" (some 760) (.file uuid collection)]
              | some (.external url) =>
                content ++ [ADF.mediaSingle "center" none (.external url)]
              | none => content
            | none => content ++ (markdown_to_adf ⟨seg⟩).content) acc,
        adfRefs ⟨u⟩ node = false := by
  intro segs
  induction segs with
  | nil => intro acc hacc _ node hn; exact hacc node (by simpa using hn)
  | cons seg segs ih =>
    intro acc hacc hsegs node hn
    rw [List.foldl_cons] at hn
    refine ih _ ?_ (fun s hs => hsegs s (by simp [hs])) node hn
    intro nd hnd
    rw [buildStep_eq media_map acc seg] at hnd
    rcases List.mem_append.mp hnd with hnd | hnd
    · exact hacc nd hnd
    · exact seg_step_clean hu hsp hnl hlbl hpay (hsegs seg (by simp)) nd hnd

/-- C10 theorem: `markdown_to_adf` is total — the block-parsing loop's fuel
(one unit per line plus one per character, the strict-progress bound) never
runs out — and the result is always a version-1 `doc` document. -/
theorem markdown_to_adf_total (markdown : String) :
    (mdBlocks (totalLen (splitLinesPy markdown.data) + 1)
        (splitLinesPy markdown.data)).isSome ∧
      (markdown_to_adf markdown).version = 1 ∧
      (markdown_to_adf markdown).docType = "doc" := by
  refine ⟨mdBlocks_isSome _ _ (by omega), ?_, ?_⟩ <;>
    · rw [markdown_to_adf]
      split <;> rfl

/-- C1 counterexample: the claim quantifies over every markdown description;
when the description also links to the image's url with a plain link
`[x](u)`, the url survives in a link mark even though the image itself (with
no substitution entry) is dropped.  All three conjuncts are computed. -/
theorem build_description_leaks_plain_link :
    ("a", "u") ∈ extract_image_urls "![a](u)[x](u)" ∧
      lookupEntry [] "u" = none ∧
      docRefs "u" (build_description_adf_with_media "![a](u)[x](u)" []) = true := by
  refine ⟨by decide, by decide, by decide⟩

/-- C1 amended: for every markdown description, substitution table and image
url `u` with no table entry, the resulting tree contains no node referencing
`u`, provided (as the counterexample forces) `u` does not occur in the
description outside image references (hypothesis `hgaps`: `u` does not occur
in any non-image segment of the split), no table entry carries `u` in its
payload, and `u` is a plausible url: no space, no newline, and not a
fragment of the fixed rendered label text `"[image: image]"`. -/
theorem build_description_anti_leakage (markdown : String)
    (media_map : List (String × MediaEntry)) (alt u : String)
    (himg : (alt, u) ∈ extract_image_urls markdown)
    (hent : lookupEntry media_map u = none)
    (hpay : ∀ p ∈ media_map, ¬ u ∈ entryStrings p.2)
    (hsp : ' ' ∉ u.data) (hnl : '\n' ∉ u.data)
    (hlbl : ¬ u.data <:+: imgLabelFull)
    (hgaps : ∀ seg ∈ splitImages markdown.data, fullmatchImage seg = none →
      ¬ u.data <:+: seg) :
    docRefs u (build_description_adf_with_media markdown media_map) = false := by
  have hu : u.data ≠ [] := extract_image_urls_ne himg
  have hu2 : (⟨u.data⟩ : String) = u := rfl
  rw [build_description_adf_with_media, docRefs]
  split
  · simp
  · dsimp only
    rw [List.any_eq_false]
    intro node hn
    have := buildFold_clean hu hsp hnl hlbl (by rw [hu2]; exact hpay)
      (splitImages markdown.data) [] (by simp) hgaps node hn
    rw [hu2] at this
    simp [this]

-- ───────────────────────────────────────────────────────────────────────────
--  Dict lemmas (Python dict-update semantics).
-- ───────────────────────────────────────────────────────────────────────────

theorem dictGet_cons (a : String) (b : JVal) (d : Fields) (k : String) :
    dictGet ((a, b) :: d) k = if a = k then some b else dictGet d k := by
  by_cases h : a = k <;> simp [dictGet, List.find?_cons, h]

theorem dictMem_iff_get (d : Fields) (k : String) :
    dictMem d k = true ↔ (dictGet d k).isSome := by
  simp [dictMem, dictGet]

theorem dictGet_update_mem {k : String} {v : JVal} :
    ∀ d : Fields, dictMem d k →
      dictGet (d.map fun p => if p.1 = k then (k, v) else p) k = some v
  | [], h => by simp [dictMem] at h
  | (a, b) :: d, h => by
    by_cases ha : a = k
    · rw [List.map_cons, if_pos ha, dictGet_cons, if_pos rfl]
    · have hd : dictMem d k := by
        simpa [dictMem, List.find?_cons, ha] using h
      rw [List.map_cons, if_neg ha, dictGet_cons, if_neg ha]
      exact dictGet_update_mem d hd

theorem dictGet_append_mem {k : String} {v : JVal} :
    ∀ d : Fields, ¬ dictMem d k → dictGet (d ++ [(k, v)]) k = some v
  | [], _ => by rw [List.nil_append, dictGet_cons, if_pos rfl]
  | (a, b) :: d, h => by
    have ha : ¬ a = k := by
      intro hak
      exact h (by simp [dictMem, List.find?_cons, hak])
    have hd : ¬ dictMem d k := by
      intro hd
      exact h (by simpa [dictMem, List.find?_cons, ha] using hd)
    rw [List.cons_append, dictGet_cons, if_neg ha]
    exact dictGet_append_mem d hd

theorem dictGet_dictSet_self (d : Fields) (k : String) (v : JVal) :
    dictGet (dictSet d k v) k = some v := by
  rw [dictSet]
  split
  · exact dictGet_update_mem d (by assumption)
  · exact dictGet_append_mem d (by assumption)

theorem dictGet_update_ne {k k' : String} {v : JVal} (hne : k' ≠ k) :
    ∀ d : Fields,
      dictGet (d.map fun p => if p.1 = k then (k, v) else p) k' = dictGet d k'
  | [] => rfl
  | (a, b) :: d => by
    by_cases ha : a = k
    · have h1 : ¬ (a = k') := fun h => hne (h.symm.trans ha)
      have h2 : ¬ (k = k') := fun h => hne h.symm
      rw [List.map_cons, if_pos ha, dictGet_cons, if_neg h2, dictGet_cons, if_neg h1]
      exact dictGet_update_ne hne d
    · rw [List.map_cons, if_neg ha, dictGet_cons, dictGet_cons]
      by_cases ha' : a = k'
      · rw [if_pos ha', if_pos ha']
      · rw [if_neg ha', if_neg ha']
        exact dictGet_update_ne hne d

theorem dictGet_append_ne {k k' : String} {v : JVal} (hne : k' ≠ k) :
    ∀ d : Fields, dictGet (d ++ [(k, v)]) k' = dictGet d k'
  | [] => by
    have h1 : ¬ (k = k') := fun h => hne h.symm
    rw [List.nil_append, dictGet_cons, if_neg h1]
  | (a, b) :: d => by
    rw [List.cons_append, dictGet_cons, dictGet_cons]
    by_cases ha : a = k'
    · rw [if_pos ha, if_pos ha]
    · rw [if_neg ha, if_neg ha]
      exact dictGet_append_ne hne d

theorem dictGet_dictSet_ne {d : Fields} {k k' : String} {v : JVal} (hne : k' ≠ k) :
    dictGet (dictSet d k v) k' = dictGet d k' := by
  rw [dictSet]
  split
  · exact dictGet_update_ne hne d
  · exact dictGet_append_ne hne d

-- ───────────────────────────────────────────────────────────────────────────
--  C9: `load_mapping`.
-- ───────────────────────────────────────────────────────────────────────────

/-- C9: `load_mapping` never raises: an absent mapping file yields the empty
table, unparseable contents yield the empty table, and a successful parse is
returned as is. -/
theorem load_mapping_never_raises (parse : String → Option PyJson) :
    load_mapping none parse = .table [] ∧
    (∀ s, parse s = none → load_mapping (some s) parse = .table []) ∧
    (∀ s m, parse s = some m → load_mapping (some s) parse = m) := by
  refine ⟨rfl, ?_, ?_⟩
  · intro s h
    simp [load_mapping, h]
  · intro s m h
    simp [load_mapping, h]

/-- C9 witness: the three cases of `load_mapping_never_raises` at a concrete
filesystem and parser. -/
theorem load_mapping_never_raises_witness :
    load_mapping none (fun s => if s = "ok" then some (.table [("a", "b")]) else none) =
      .table [] ∧
    load_mapping (some "bad")
      (fun s => if s = "ok" then some (.table [("a", "b")]) else none) = .table [] ∧
    load_mapping (some "ok")
      (fun s => if s = "ok" then some (.table [("a", "b")]) else none) =
      .table [("a", "b")] :=
  ⟨(load_mapping_never_raises _).1,
   (load_mapping_never_raises _).2.1 "bad" rfl,
   (load_mapping_never_raises _).2.2 "ok" (.table [("a", "b")]) rfl⟩

-- ───────────────────────────────────────────────────────────────────────────
--  C8: `resolve_due_date` precedence.
-- ───────────────────────────────────────────────────────────────────────────

/-- C8: `resolve_due_date` tries the explicit due date, then the date part of
the SLA timestamp, then the SLI/SLA custom-field heuristic, first success
winning; and the two concrete precedence examples, an ISO-valued custom
field, a day-offset custom field, and the all-absent case compute as the
spec states. -/
theorem resolve_due_date_precedence (issue : Issue) :
    (∀ d, pyOptS issue.dueDate = some d → resolve_due_date issue = some d) ∧
    (∀ sla r, pyOptS issue.dueDate = none → pyOptS issue.slaDueAt = some sla →
      parse_iso_to_date sla = some r → resolve_due_date issue = some r) ∧
    (pyOptS issue.dueDate = none →
      ((pyOptS issue.slaDueAt).bind fun sla => parse_iso_to_date sla) = none →
      resolve_due_date issue =
        dueFromCustomFields issue.createdAt issue.customFieldValues) ∧
    resolve_due_date
      { dueDate := some "2024-12-31", slaDueAt := some "2024-11-01T00:00:00Z" } =
      some "2024-12-31" ∧
    resolve_due_date { slaDueAt := some "2024-11-01T00:00:00Z" } =
      some "2024-11-01" ∧
    resolve_due_date
      { customFieldValues := [⟨some "SLA target", none, some (.s "2024-05-05")⟩] } =
      some "2024-05-05" ∧
    resolve_due_date
      { createdAt := some "2024-01-01T00:00:00Z",
        customFieldValues := [⟨some "sla days", none, some (.i 30)⟩] } =
      some "2024-01-31" ∧
    resolve_due_date {} = none := by
  refine ⟨?_, ?_, ?_, by decide, by decide, by decide, by with_unfolding_all rfl,
    by decide⟩
  · intro d h
    simp [resolve_due_date, h]
  · intro sla r h1 h2 h3
    simp [resolve_due_date, h1, h2, h3]
  · intro h1 h2
    simp [resolve_due_date, h1, h2]

/-- C8 witness: the precedence conjuncts of `resolve_due_date_precedence`
applied at the spec's two concrete entities. -/
theorem resolve_due_date_precedence_witness :
    resolve_due_date
      { dueDate := some "2024-12-31", slaDueAt := some "2024-11-01T00:00:00Z" } =
      some "2024-12-31" ∧
    resolve_due_date { slaDueAt := some "2024-11-01T00:00:00Z" } =
      some "2024-11-01" :=
  ⟨(resolve_due_date_precedence _).1 "2024-12-31" rfl,
   (resolve_due_date_precedence
      { slaDueAt := some "2024-11-01T00:00:00Z" }).2.1
    "2024-11-01T00:00:00Z" "2024-11-01" rfl rfl (by decide)⟩

-- ───────────────────────────────────────────────────────────────────────────
--  C7: reciprocal relation records produce a single directed link.
-- ───────────────────────────────────────────────────────────────────────────

/-- C7: two migrated entities with reciprocal `blocks`/`blocked_by` relation
records, both with mapped keys, produce exactly one link-creation call,
directed from the blocker to the blocked entity. -/
theorem reciprocal_blocks_single_link (mapping : Mapping)
    (linkOk : String → String → String → Bool) (a b ka kb : String)
    (ha : mapGet mapping a = some ka) (hb : mapGet mapping b = some kb)
    (hka : ka ≠ "") (hkb : kb ≠ "") :
    (phase_create_links
      [{ id := some a, relations := [⟨some "blocks", some b⟩] },
       { id := some b, relations := [⟨some "blocked_by", some a⟩] }]
      mapping linkOk).calls = [("Blocks", ka, kb)] := by
  have hpa : pyOptS (mapGet mapping a) = some ka := by simp [pyOptS, ha, hka]
  have hpb : pyOptS (mapGet mapping b) = some kb := by simp [pyOptS, hb, hkb]
  have e1 : linkRelStep linkOk mapping ka initLinkState ⟨some "blocks", some b⟩ =
      (if linkOk "Blocks" ka kb
        then ⟨[("Blocks", sortPair ka kb)], [("Blocks", ka, kb)], 1, 0, 0⟩
        else ⟨[("Blocks", sortPair ka kb)], [("Blocks", ka, kb)], 0, 0, 1⟩ :
        LinkState) := by
    rw [linkRelStep]
    simp +decide [hpb, initLinkState, alGetD, alGet, RELATION_TYPE_MAP]
  have e2 : ∀ st : LinkState, ("Blocks", sortPair ka kb) ∈ st.linkedPairs →
      linkRelStep linkOk mapping kb st ⟨some "blocked_by", some a⟩ = st := by
    intro st hmem
    rw [linkRelStep]
    simp +decide [hpa, alGetD, alGet, RELATION_TYPE_MAP, hmem]
  simp only [phase_create_links, List.foldl_cons, List.foldl_nil, Option.getD_some,
    hpa, hpb]
  rw [e1]
  by_cases hl : linkOk "Blocks" ka kb
  · rw [if_pos hl, e2 _ (by simp)]
  · rw [if_neg hl, e2 _ (by simp)]

/-- C7 witness: `reciprocal_blocks_single_link` at a concrete mapping and
pair of entities. -/
theorem reciprocal_blocks_single_link_witness :
    (phase_create_links
      [{ id := some "A", relations := [⟨some "blocks", some "B"⟩] },
       { id := some "B", relations := [⟨some "blocked_by", some "A"⟩] }]
      [("A", "JA"), ("B", "JB")] (fun _ _ _ => true)).calls =
      [("Blocks", "JA", "JB")] :=
  reciprocal_blocks_single_link [("A", "JA"), ("B", "JB")] (fun _ _ _ => true)
    "A" "B" "JA" "JB" rfl rfl (by decide) (by decide)

-- ───────────────────────────────────────────────────────────────────────────
--  C2: the retry loop never mutates the caller's dict cell.
-- ───────────────────────────────────────────────────────────────────────────

theorem hget_hset_ne {h : Heap} {r s : Nat} {v : Fields} (hne : r ≠ s) :
    hget (hset h s v) r = hget h r := by
  simp [hget, hset, List.getD_eq_getElem?_getD, List.getElem?_set_ne (Ne.symm hne)]

theorem tryCreateGo_frame (create : CreateOracle) (gf : GetFieldsOracle) :
    ∀ (rem idx : Nat) (le : Option String) (h : Heap) (curRef : Nat)
      (trace : CreateTrace) (r : Nat), r ≠ curRef →
      hget (tryCreateGo create gf rem idx le h curRef trace).2 r = hget h r
  | 0, _, _, _, _, _, _, _ => rfl
  | rem + 1, idx, le, h, curRef, trace, r, hne => by
    rw [tryCreateGo]
    split
    · rfl
    · split
      · rw [tryCreateGo_frame create gf rem _ _ _ _ _ r hne, hget_hset_ne hne]
      · rfl

/-- C2: `_try_create_issue` repairs only its private copy: whatever the
oracles do — immediate success, success after repairs, or a raised error —
every dict cell the caller owns (every cell of the incoming heap, the
`fields` argument's cell included) is unchanged when the call returns. -/
theorem try_create_issue_frame (create : CreateOracle) (gf : GetFieldsOracle)
    (h : Heap) (fieldsRef r : Nat) (hr : r < h.cells.length) :
    hget (try_create_issue_heap create gf h fieldsRef).2 r = hget h r := by
  rw [try_create_issue_heap]
  dsimp only [halloc]
  rw [tryCreateGo_frame create gf 4 0 none _ _ [] r (Nat.ne_of_lt hr)]
  simp only [hget, List.getD_eq_getElem?_getD]
  rw [List.getElem?_append, if_pos hr]

/-- C2 witness: a creation oracle that always fails with a reporter error
repairs the private copy on every pass, yet the caller's cell still holds
the original payload. -/
theorem try_create_issue_frame_witness :
    0 < (⟨[[("reporter", JVal.str "r")]]⟩ : Heap).cells.length ∧
    hget (try_create_issue_heap (fun _ _ => .error "bad \"reporter\" field") none
      ⟨[[("reporter", JVal.str "r")]]⟩ 0).2 0 = [("reporter", JVal.str "r")] :=
  ⟨by decide,
   try_create_issue_frame (fun _ _ => .error "bad \"reporter\" field") none
     ⟨[[("reporter", JVal.str "r")]]⟩ 0 0 (by decide)⟩

-- ───────────────────────────────────────────────────────────────────────────
--  C3: at most 4 attempts; unmatched errors abort at once; the last error
--  is the one raised.
-- ───────────────────────────────────────────────────────────────────────────

theorem noSigMsg_classifyRepair {gf : GetFieldsOracle} {e : String} {cur : Fields}
    (h : noSigMsg e = true) : classifyRepair gf e cur = none := by
  rw [noSigMsg] at h
  simp only [Bool.and_eq_true, Bool.not_eq_true'] at h
  obtain ⟨⟨⟨h1, h2⟩, h3⟩, h4⟩ := h
  simp only [List.cons_append, List.nil_append] at h2
  simp [classifyRepair, h1, h2, h3, h4]

theorem tryCreateGo_len (create : CreateOracle) (gf : GetFieldsOracle) :
    ∀ (rem idx : Nat) (le : Option String) (h : Heap) (curRef : Nat)
      (trace : CreateTrace),
      (tryCreateGo create gf rem idx le h curRef trace).1.2.length ≤
        trace.length + rem
  | 0, _, _, _, _, trace => by simp [tryCreateGo]
  | rem + 1, idx, le, h, curRef, trace => by
    rw [tryCreateGo]
    split
    · simp
    · rename_i e' hcr
      split
      · rename_i cur2 hcl
        have := tryCreateGo_len create gf rem (idx + 1) (some e')
          (hset h curRef cur2) curRef ((hget h curRef, .error e') :: trace)
        simp only [List.length_cons] at this
        omega
      · simp

theorem tryCreateGo_last (create : CreateOracle) (gf : GetFieldsOracle) :
    ∀ (rem idx : Nat) (le : Option String) (h : Heap) (curRef : Nat)
      (trace : CreateTrace),
      (∀ p, trace.head? = some p → ∀ e, p.2 = .error e → le = some e) →
      ∀ p, (tryCreateGo create gf rem idx le h curRef trace).1.2.getLast? = some p →
        ∀ e, p.2 = .error e →
          (tryCreateGo create gf rem idx le h curRef trace).1.1 = .error e
  | 0, idx, le, h, curRef, trace, inv, p, hp, e, he => by
    rw [tryCreateGo] at hp ⊢
    rw [List.getLast?_reverse] at hp
    have := inv p hp e he
    simp [this]
  | rem + 1, idx, le, h, curRef, trace, inv, p, hp, e, he => by
    rw [tryCreateGo] at hp ⊢
    split at hp
    · rw [List.getLast?_reverse] at hp
      simp only [List.head?_cons, Option.some.injEq] at hp
      subst hp
      simp at he
    · rename_i e' hcr
      split at hp
      · rename_i cur2 hcl
        exact tryCreateGo_last create gf rem (idx + 1) (some e')
          (hset h curRef cur2) curRef ((hget h curRef, .error e') :: trace)
          (by
            intro q hq f hf
            simp only [List.head?_cons, Option.some.injEq] at hq
            subst hq
            simp only at hf
            cases hf
            rfl)
          p hp e he
      · rw [List.getLast?_reverse] at hp
        simp only [List.head?_cons, Option.some.injEq] at hp
        subst hp
        simp only at he
        cases he
        rfl

theorem tryCreateGo_stop (create : CreateOracle) (gf : GetFieldsOracle) :
    ∀ (rem idx : Nat) (le : Option String) (h : Heap) (curRef : Nat)
      (trace : CreateTrace),
      (∀ q ∈ trace, ∀ e, q.2 = .error e → noSigMsg e = false) →
      ∀ i q, (tryCreateGo create gf rem idx le h curRef trace).1.2[i]? = some q →
        ∀ e, q.2 = .error e → noSigMsg e = true →
        i = (tryCreateGo create gf rem idx le h curRef trace).1.2.length - 1 ∧
          (tryCreateGo create gf rem idx le h curRef trace).1.1 = .error e := by
  intro rem
  induction rem with
  | zero =>
    intro idx le h curRef trace inv i q hq e he hsig
    exfalso
    rw [tryCreateGo] at hq
    have hmem : q ∈ trace := List.mem_reverse.mp (List.getElem?_mem hq)
    have := inv q hmem e he
    rw [this] at hsig
    cases hsig
  | succ rem ih =>
    intro idx le h curRef trace inv i q hq e he hsig
    rw [tryCreateGo] at hq ⊢
    split at hq
    · rename_i r hcr
      exfalso
      rw [List.reverse_cons, List.getElem?_append] at hq
      split at hq
      · have hmem : q ∈ trace := List.mem_reverse.mp (List.getElem?_mem hq)
        have := inv q hmem e he
        rw [this] at hsig
        cases hsig
      · rcases hd : i - trace.reverse.length with _ | n
        · rw [hd] at hq
          simp only [List.getElem?_cons_zero, Option.some.injEq] at hq
          subst hq
          simp at he
        · rw [hd] at hq
          simp at hq
    · rename_i e' hcr
      split at hq
      · rename_i cur2 hcl
        refine ih (idx + 1) (some e') (hset h curRef cur2) curRef
          ((hget h curRef, .error e') :: trace) ?_ i q hq e he hsig
        intro p hp f hf
        rcases List.mem_cons.mp hp with hp | hp
        · subst hp
          simp only at hf
          injection hf with hef
          subst hef
          by_cases hs : noSigMsg e' = true
          · have hnone : classifyRepair gf e' (hget h curRef) = none :=
              noSigMsg_classifyRepair hs
            rw [hcl] at hnone
            cases hnone
          · simpa using hs
        · exact inv p hp f hf
      · rw [List.reverse_cons, List.getElem?_append] at hq
        split at hq
        · exfalso
          have hmem : q ∈ trace := List.mem_reverse.mp (List.getElem?_mem hq)
          have := inv q hmem e he
          rw [this] at hsig
          cases hsig
        · rename_i hge
          rcases hd : i - trace.reverse.length with _ | n
          · rw [hd] at hq
            simp only [List.getElem?_cons_zero, Option.some.injEq] at hq
            subst hq
            simp only at he
            cases he
            constructor
            · simp only [List.reverse_cons, List.length_append, List.length_reverse,
                List.length_cons, List.length_nil]
              simp only [List.length_reverse] at hd hge
              omega
            · rfl
          · rw [hd] at hq
            simp at hq

/-- C3: `_try_create_issue` calls the creation oracle at most 4 times; an
attempt whose error message matches none of the three repair signatures is
the last attempt made and its error is the result; and whenever the last
attempt fails, that last error is the raised one. -/
theorem try_create_issue_attempts (create : CreateOracle) (gf : GetFieldsOracle)
    (fields : Fields) :
    (try_create_issue create gf fields).2.length ≤ 4 ∧
    (∀ i (hi : i < (try_create_issue create gf fields).2.length) (e : String),
      ((try_create_issue create gf fields).2.get ⟨i, hi⟩).2 = .error e →
      noSigMsg e = true →
      i = (try_create_issue create gf fields).2.length - 1 ∧
        (try_create_issue create gf fields).1 = .error e) ∧
    (∀ p, (try_create_issue create gf fields).2.getLast? = some p →
      ∀ e, p.2 = .error e → (try_create_issue create gf fields).1 = .error e) := by
  have he : try_create_issue create gf fields =
      (tryCreateGo create gf 4 0 none ⟨[fields, fields]⟩ 1 []).1 := rfl
  rw [he]
  refine ⟨?_, ?_, ?_⟩
  · simpa using tryCreateGo_len create gf 4 0 none ⟨[fields, fields]⟩ 1 []
  · intro i hi e hgete hsig
    refine tryCreateGo_stop create gf 4 0 none ⟨[fields, fields]⟩ 1 []
      (by intro q hq; cases hq) i _ ?_ e hgete hsig
    rw [List.getElem?_eq_getElem hi, List.get_eq_getElem]
  · exact tryCreateGo_last create gf 4 0 none ⟨[fields, fields]⟩ 1 []
      (by intro p hp; cases hp)

/-- C3 witness: an oracle that always fails with a message matching no
repair signature makes exactly one attempt and raises that error. -/
theorem try_create_issue_attempts_witness :
    (try_create_issue (fun _ _ => .error "boom") none []).2.length ≤ 4 ∧
    0 = (try_create_issue (fun _ _ => .error "boom") none []).2.length - 1 ∧
    (try_create_issue (fun _ _ => .error "boom") none []).1 = .error "boom" :=
  ⟨(try_create_issue_attempts (fun _ _ => .error "boom") none []).1,
   ((try_create_issue_attempts (fun _ _ => .error "boom") none []).2.1 0 (by decide)
     "boom" rfl (by decide)).1,
   (try_create_issue_attempts (fun _ _ => .error "boom") none []).2.2
     ([], .error "boom") rfl "boom" rfl⟩

-- ───────────────────────────────────────────────────────────────────────────
--  C4: mapping consultation with the reachability probe.
-- ───────────────────────────────────────────────────────────────────────────

/-- C4: a live mapping hit returns the existing key and `_create_one_issue`
skips the item (no creation call, no mapping change); a dead hit is evicted,
the shrunk mapping is persisted, the probe reports none, and the subsequent
successful creation installs exactly one replacement entry. -/
theorem mapping_reachability (mapping : Mapping) (key jkey : String)
    (oc : MigrateOracles) (issue : Issue) (project_key : String)
    (epic_map priority_map assignee_map reporter_map : List (String × String))
    (sp_field_id epic_name_field : Option String)
    (hm : mapGet mapping key = some jkey) (hid : issue.id.getD "" = key) :
    (oc.issueExists jkey = true →
      check_existing_mapping mapping key oc.issueExists = (some jkey, mapping, []) ∧
      (jkey ≠ "" →
        create_one_issue oc issue project_key epic_map mapping priority_map
          sp_field_id epic_name_field assignee_map reporter_map =
          ⟨false, true, false, mapping, [], [], none⟩)) ∧
    (oc.issueExists jkey = false →
      check_existing_mapping mapping key oc.issueExists =
        (none, mapDel mapping key, [mapDel mapping key]) ∧
      (∀ r jk, (try_create_issue oc.create oc.getFields
          (build_jira_fields issue project_key (determine_issue_type issue)
            priority_map sp_field_id epic_name_field
            (issue.project.bind fun pid => alGet epic_map pid)
            assignee_map reporter_map false)).1 = .ok r →
        jvalStrAt r "key" = some jk →
        (create_one_issue oc issue project_key epic_map mapping priority_map
            sp_field_id epic_name_field assignee_map reporter_map).created = true ∧
        (create_one_issue oc issue project_key epic_map mapping priority_map
            sp_field_id epic_name_field assignee_map reporter_map).skipped = false ∧
        (create_one_issue oc issue project_key epic_map mapping priority_map
            sp_field_id epic_name_field assignee_map reporter_map).failed = false ∧
        (create_one_issue oc issue project_key epic_map mapping priority_map
            sp_field_id epic_name_field assignee_map reporter_map).mapping =
          mapSet (mapDel mapping key) key jk ∧
        (create_one_issue oc issue project_key epic_map mapping priority_map
            sp_field_id epic_name_field assignee_map reporter_map).saves =
          [mapDel mapping key, mapSet (mapDel mapping key) key jk])) := by
  constructor
  · intro halive
    have hchk : check_existing_mapping mapping key oc.issueExists =
        (some jkey, mapping, []) := by
      rw [check_existing_mapping, hm]
      dsimp only
      rw [if_pos halive]
    refine ⟨hchk, ?_⟩
    intro hjk
    rw [create_one_issue, hid, hchk]
    dsimp only
    rw [show pyOptS (some jkey) = some jkey from by simp [pyOptS, hjk]]
  · intro hdead
    have hchk : check_existing_mapping mapping key oc.issueExists =
        (none, mapDel mapping key, [mapDel mapping key]) := by
      rw [check_existing_mapping, hm]
      dsimp only
      rw [if_neg (by simp [hdead])]
    refine ⟨hchk, ?_⟩
    intro r jk htc hkey
    rw [create_one_issue, hid, hchk]
    dsimp only
    rw [show pyOptS (none : Option String) = none from rfl]
    dsimp only
    rw [htc]
    dsimp only
    rw [hkey]
    exact ⟨rfl, rfl, rfl, rfl, rfl⟩

/-- C4 witness: a live hit is skipped unchanged; a dead hit is evicted,
persisted, and replaced by exactly one freshly created entry. -/
theorem mapping_reachability_witness :
    create_one_issue
        ⟨fun _ => true, fun _ _ => .error "x", none, fun _ => none,
         fun _ _ _ => .error "", fun _ => none⟩
        { id := some "L1" } "P" [] [("L1", "J9")] [] none none [] [] =
      ⟨false, true, false, [("L1", "J9")], [], [], none⟩ ∧
    ((create_one_issue
        ⟨fun _ => false, fun _ _ => .ok (.obj [("key", .str "K1")]), none,
         fun _ => none, fun _ _ _ => .error "", fun _ => none⟩
        { id := some "L1" } "P" [] [("L1", "J9")] [] none none [] []).created = true ∧
      (create_one_issue
        ⟨fun _ => false, fun _ _ => .ok (.obj [("key", .str "K1")]), none,
         fun _ => none, fun _ _ _ => .error "", fun _ => none⟩
        { id := some "L1" } "P" [] [("L1", "J9")] [] none none [] []).mapping =
        [("L1", "K1")]) :=
  ⟨((mapping_reachability [("L1", "J9")] "L1" "J9"
      ⟨fun _ => true, fun _ _ => .error "x", none, fun _ => none,
       fun _ _ _ => .error "", fun _ => none⟩
      { id := some "L1" } "P" [] [] [] [] none none rfl rfl).1 rfl).2 (by decide),
   ⟨(((mapping_reachability [("L1", "J9")] "L1" "J9"
      ⟨fun _ => false, fun _ _ => .ok (.obj [("key", .str "K1")]), none,
       fun _ => none, fun _ _ _ => .error "", fun _ => none⟩
      { id := some "L1" } "P" [] [] [] [] none none rfl rfl).2 rfl).2
      (.obj [("key", .str "K1")]) "K1" rfl rfl).1,
    (((mapping_reachability [("L1", "J9")] "L1" "J9"
      ⟨fun _ => false, fun _ _ => .ok (.obj [("key", .str "K1")]), none,
       fun _ => none, fun _ _ _ => .error "", fun _ => none⟩
      { id := some "L1" } "P" [] [] [] [] none none rfl rfl).2 rfl).2
      (.obj [("key", .str "K1")]) "K1" rfl rfl).2.2.2.1⟩⟩

-- ───────────────────────────────────────────────────────────────────────────
--  C5: story points.
-- ───────────────────────────────────────────────────────────────────────────

/-- C5 counterexample: an integral estimate (3) is emitted as the Python
float `3.0` — the `num/float` tag, not the `num/int` tag the claim
demands for integral estimates. -/
theorem integral_estimate_emitted_as_float :
    dictGet (build_jira_fields { estimate := some (.int 3) } "P" "Story" []
        (some "customfield_10016") none none [] [] false) "customfield_10016" =
      some (.num (.float ((3 : Int) : Rat))) ∧
    JNum.float ((3 : Int) : Rat) ≠ JNum.int 3 :=
  ⟨rfl, by decide⟩

theorem build_jira_fields_staged (issue : Issue) (pk it : String)
    (pm : List (String × String)) (sp enf ek : Option String)
    (am rm : List (String × String)) (ie : Bool) :
    build_jira_fields issue pk it pm sp enf ek am rm ie =
      bjfReporterStage issue rm (bjfAssigneeStage issue am (bjfLabelsStage issue
        (bjfDueStage issue
          (match pyOptS sp, issue.estimate with
            | some spid, some e =>
              dictSet (bjfBase issue pk it pm enf ek ie) spid (.num (.float e.toRat))
            | _, _ => bjfBase issue pk it pm enf ek ie)))) := rfl

theorem dictGet_bjfDueStage {k : String} (hne : k ≠ "duedate") (issue : Issue)
    (d : Fields) : dictGet (bjfDueStage issue d) k = dictGet d k := by
  rw [bjfDueStage]
  split
  · split
    · exact dictGet_dictSet_ne hne
    · rfl
  · rfl

theorem dictGet_bjfLabelsStage {k : String} (hne : k ≠ "labels") (issue : Issue)
    (d : Fields) : dictGet (bjfLabelsStage issue d) k = dictGet d k := by
  rw [bjfLabelsStage]
  dsimp only
  split <;>
  · split
    · exact dictGet_dictSet_ne hne
    · rfl

theorem dictGet_bjfAssigneeStage {k : String} (hne : k ≠ "assignee") (issue : Issue)
    (am : List (String × String)) (d : Fields) :
    dictGet (bjfAssigneeStage issue am d) k = dictGet d k := by
  rw [bjfAssigneeStage]
  split
  · dsimp only
    split
    · split
      · exact dictGet_dictSet_ne hne
      · rfl
    · rfl
  · rfl

theorem dictGet_bjfReporterStage {k : String} (hne : k ≠ "reporter") (issue : Issue)
    (rm : List (String × String)) (d : Fields) :
    dictGet (bjfReporterStage issue rm d) k = dictGet d k := by
  rw [bjfReporterStage]
  split
  · split
    · split
      · split
        · exact dictGet_dictSet_ne hne
        · rfl
      · rfl
    · rfl
  · rfl

theorem dictGet_bjfBase_none (issue : Issue) (pk it : String)
    (pm : List (String × String)) (enf ek : Option String) {spid : String}
    (n1 : spid ≠ "summary") (n2 : spid ≠ "project") (n3 : spid ≠ "issuetype")
    (n4 : spid ≠ "parent") (n5 : spid ≠ "priority") :
    dictGet (bjfBase issue pk it pm enf ek false) spid = none := by
  rw [bjfBase]
  rw [show (if (false : Bool) then pyOptS enf else none) = (none : Option String)
      from rfl,
    show (if (false : Bool) then none else pyOptS ek) = pyOptS ek from rfl]
  dsimp only
  split
  · rw [dictGet_dictSet_ne n5, dictGet_dictSet_ne n4, dictGet_dictSet_ne n3,
      dictGet_dictSet_ne n2, dictGet_cons, if_neg fun h => n1 h.symm]
    rfl
  · rw [dictGet_dictSet_ne n5, dictGet_dictSet_ne n3,
      dictGet_dictSet_ne n2, dictGet_cons, if_neg fun h => n1 h.symm]
    rfl

/-- C5 amended: the story-points field is set iff a points field id was
detected and the estimate is non-null, and the emitted value is always the
float `float(estimate)` — integral estimates included. -/
theorem story_points_spec (issue : Issue) (pk it : String)
    (pm am rm : List (String × String)) (sp_field_id enf ek : Option String) :
    (pyOptS sp_field_id = none →
      build_jira_fields issue pk it pm sp_field_id enf ek am rm false =
        build_jira_fields issue pk it pm none enf ek am rm false) ∧
    (∀ spid, pyOptS sp_field_id = some spid →
      spid ∉ (["summary", "project", "issuetype", "parent", "priority", "duedate",
        "labels", "assignee", "reporter"] : List String) →
      dictGet (build_jira_fields issue pk it pm sp_field_id enf ek am rm false) spid =
        issue.estimate.map fun e => .num (.float e.toRat)) := by
  constructor
  · intro hnone
    rw [build_jira_fields_staged, build_jira_fields_staged, hnone]
    rfl
  · intro spid hsp hres
    simp only [List.mem_cons, List.not_mem_nil, or_false, not_or] at hres
    obtain ⟨n1, n2, n3, n4, n5, n6, n7, n8, n9⟩ := hres
    rw [build_jira_fields_staged, dictGet_bjfReporterStage n9,
      dictGet_bjfAssigneeStage n8, dictGet_bjfLabelsStage n7,
      dictGet_bjfDueStage n6, hsp]
    cases hest : issue.estimate with
    | some e =>
      dsimp only
      rw [dictGet_dictSet_self]
      rfl
    | none =>
      dsimp only
      rw [dictGet_bjfBase_none issue pk it pm enf ek n1 n2 n3 n4 n5]
      rfl

/-- C5 witness: `story_points_spec` at a concrete issue — an empty detected
field id sets nothing, and a detected `customfield_10016` with integral
estimate 2 receives the float 2.0. -/
theorem story_points_spec_witness :
    build_jira_fields { estimate := some (.int 2) } "P" "Story" [] (some "") none
        none [] [] false =
      build_jira_fields { estimate := some (.int 2) } "P" "Story" [] none none
        none [] [] false ∧
    dictGet (build_jira_fields { estimate := some (.int 2) } "P" "Story" []
        (some "customfield_10016") none none [] [] false) "customfield_10016" =
      some (.num (.float ((2 : Int) : Rat))) :=
  ⟨(story_points_spec { estimate := some (.int 2) } "P" "Story" [] [] []
      (some "") none none).1 rfl,
   (story_points_spec { estimate := some (.int 2) } "P" "Story" [] [] []
      (some "customfield_10016") none none).2 "customfield_10016" rfl (by decide)⟩

-- ───────────────────────────────────────────────────────────────────────────
--  C6: the forwarded label list.
-- ───────────────────────────────────────────────────────────────────────────

/-- C6 counterexample: with labels `Bug` and `Feature Request`, the type
classification consumes only `Bug` (the first match), yet `Feature Request`
is also dropped from the forwarded labels — exclusion is by membership in
the classification label set, not by consumption. -/
theorem label_excluded_without_consumption :
    determine_issue_type
      { identifier := some "ABC-1",
        labels := [⟨some "Bug"⟩, ⟨some "Feature Request"⟩] } = "Bug" ∧
    dictGet (build_jira_fields
        { identifier := some "ABC-1",
          labels := [⟨some "Bug"⟩, ⟨some "Feature Request"⟩] }
        "P" "Bug" [] none none none [] [] false) "labels" =
      some (.arr [.str "linear-ABC-1"]) :=
  ⟨rfl, rfl⟩

/-- C6 amended: for an entity with a non-empty identifier, the forwarded
label list exists and consists of exactly the traceability label
`linear-<identifier>` plus every own label whose stripped name is non-empty
and whose lower-cased name is outside the classification label set
(`typeLabelNames`), each with spaces replaced by `-` — membership in that
set, not consumption, decides exclusion. -/
theorem forwarded_labels_spec (issue : Issue) (pk it : String)
    (pm am rm : List (String × String)) (sp enf ek : Option String)
    (ident : String) (hid : issue.identifier = some ident) (hne : ident ≠ "") :
    ∃ L : List String,
      dictGet (build_jira_fields issue pk it pm sp enf ek am rm false) "labels" =
        some (.arr (L.map .str)) ∧
      (⟨"linear-".data ++ ident.data⟩ : String) ∈ L ∧
      (∀ lbl ∈ issue.labels,
        pyStrip (pyOrStr lbl.name "").data ≠ [] →
        ¬ lowerStr (pyStrip (pyOrStr lbl.name "").data) ∈ typeLabelNames →
        (⟨(pyStrip (pyOrStr lbl.name "").data).map
            fun c => if c = ' ' then '-' else c⟩ : String) ∈ L) ∧
      ∀ s ∈ L, s = (⟨"linear-".data ++ ident.data⟩ : String) ∨
        ∃ lbl ∈ issue.labels,
          pyStrip (pyOrStr lbl.name "").data ≠ [] ∧
          ¬ lowerStr (pyStrip (pyOrStr lbl.name "").data) ∈ typeLabelNames ∧
          s = ⟨(pyStrip (pyOrStr lbl.name "").data).map
              fun c => if c = ' ' then '-' else c⟩ := by
  refine ⟨(⟨"linear-".data ++ ident.data⟩ : String) :: issue.labels.filterMap
      (fun lbl =>
        if pyStrip (pyOrStr lbl.name "").data ≠ [] ∧
            ¬ lowerStr (pyStrip (pyOrStr lbl.name "").data) ∈ typeLabelNames then
          some (⟨(pyStrip (pyOrStr lbl.name "").data).map
            fun c => if c = ' ' then '-' else c⟩ : String)
        else none),
    ?_, ?_, ?_, ?_⟩
  · rw [build_jira_fields_staged, dictGet_bjfReporterStage (by decide),
      dictGet_bjfAssigneeStage (by decide), bjfLabelsStage]
    dsimp only
    rw [hid]
    simp only [Option.getD_some]
    rw [if_pos hne, List.singleton_append, if_pos (List.cons_ne_nil _ _),
      dictGet_dictSet_self]
    rfl
  · exact List.mem_cons_self _ _
  · intro lbl hl h1 h2
    exact List.mem_cons_of_mem _
      (List.mem_filterMap.mpr ⟨lbl, hl, by rw [if_pos ⟨h1, h2⟩]⟩)
  · intro s hs
    rcases List.mem_cons.mp hs with hs | hs
    · exact Or.inl hs
    · right
      rcases List.mem_filterMap.mp hs with ⟨lbl, hl, heq⟩
      by_cases hc : pyStrip (pyOrStr lbl.name "").data ≠ [] ∧
          ¬ lowerStr (pyStrip (pyOrStr lbl.name "").data) ∈ typeLabelNames
      · rw [if_pos hc] at heq
        cases heq
        exact ⟨lbl, hl, hc.1, hc.2, rfl⟩
      · rw [if_neg hc] at heq
        cases heq

/-- C6 witness: `forwarded_labels_spec` at a concrete entity — the
traceability label is present in the produced list. -/
theorem forwarded_labels_spec_witness :
    ∃ L : List String,
      dictGet (build_jira_fields
          { identifier := some "I-2", labels := [⟨some "My  Tag"⟩, ⟨some "Bug"⟩] }
          "P" "Story" [] none none none [] [] false) "labels" =
        some (.arr (L.map .str)) ∧
      ("linear-I-2" : String) ∈ L := by
  obtain ⟨L, h1, h2, -, -⟩ := forwarded_labels_spec
    { identifier := some "I-2", labels := [⟨some "My  Tag"⟩, ⟨some "Bug"⟩] }
    "P" "Story" [] [] [] none none none "I-2" rfl (by decide)
  exact ⟨L, h1, h2⟩

-- ───────────────────────────────────────────────────────────────────────────
--  C1 witness.
-- ───────────────────────────────────────────────────────────────────────────

/-- C1 witness: `build_description_anti_leakage` at a concrete description
whose only use of the url is the image reference — the url leaks nowhere. -/
theorem build_description_anti_leakage_witness :
    ("a", "u") ∈ extract_image_urls "![a](u)x" ∧
    lookupEntry [] "u" = none ∧
    docRefs "u" (build_description_adf_with_media "![a](u)x" []) = false :=
  ⟨by decide, by decide,
   build_description_anti_leakage "![a](u)x" [] "a" "u" (by decide) (by decide)
     (fun p hp => absurd hp (List.not_mem_nil p)) (by decide) (by decide)
     (by decide) (by decide)⟩

end LJS
